import Mathlib

/-!
# exfat-utils `lib/utf.c`: UTF-16LE / UTF-8 transcoding

A shallow embedding of the functions of `lib/utf.c` (the four leaf coders, the
two drivers and `utf16_length`) and the properties of their specification.

Conventions of the embedding.

* A C buffer is a function `Mem = Nat → Nat` from the offset (in elements) to
  the element stored there; a pointer into a buffer is its offset.  A `char`
  is represented by its byte pattern `0..255`, an `__le16` by the value
  `le16_to_cpu` reads from it, `0..65535`.
* `wchar_t` values are integers (`Int`): the type is a signed 32-bit integer
  on glibc/x86, so the comparisons of the encoders are signed comparisons.
* A function returning a pointer or `NULL` returns an `Option`; the encoders
  also return the buffer they wrote.
* The two driver loops consume input in every iteration and are total
  functions; the scan of `utf16_length` has no bound and is given a count of
  the tests of its loop condition.
* `exfat_err` only logs and is left out.
-/

namespace ExfatUtf

/-- Value of `EILSEQ` in the Linux `errno.h`. -/
def EILSEQ : Int := 84

/-- Value of `ENAMETOOLONG` in the Linux `errno.h`. -/
def ENAMETOOLONG : Int := 36

/-- A buffer: the element stored at each offset. -/
abbrev Mem := Nat → Nat

/-- The assignment `buf[i] = v`. -/
def store (m : Mem) (i v : Nat) : Mem := fun j => if j = i then v else m j

/-- `wchar_to_utf8(output, wc, outsize)`: `none` is `NULL`; otherwise the
buffer after the writes and the advanced pointer.  In every branch but the
first `wc > 0x7f`, so the shifts and masks act on the non-negative value
`wc.toNat`; the conversion of the `int` result to `char` is `% 256`. -/
def wchar_to_utf8 (mem : Mem) (output : Nat) (wc : Int) (outsize : Nat) :
    Option (Mem × Nat) :=
  let w := wc.toNat
  if wc ≤ 0x7f then
    if outsize < 1 then none
    else
      let m1 := store mem output (wc % 256).toNat
      some (m1, output + 1)
  else if wc ≤ 0x7ff then
    if outsize < 2 then none
    else
      let m1 := store mem output ((0xc0 ||| (w >>> 6)) % 256)
      let m2 := store m1 (output + 1) ((0x80 ||| (w &&& 0x3f)) % 256)
      some (m2, output + 2)
  else if wc ≤ 0xffff then
    if outsize < 3 then none
    else
      let m1 := store mem output ((0xe0 ||| (w >>> 12)) % 256)
      let m2 := store m1 (output + 1) ((0x80 ||| ((w >>> 6) &&& 0x3f)) % 256)
      let m3 := store m2 (output + 2) ((0x80 ||| (w &&& 0x3f)) % 256)
      some (m3, output + 3)
  else if wc ≤ 0x1fffff then
    if outsize < 4 then none
    else
      let m1 := store mem output ((0xf0 ||| (w >>> 18)) % 256)
      let m2 := store m1 (output + 1) ((0x80 ||| ((w >>> 12) &&& 0x3f)) % 256)
      let m3 := store m2 (output + 2) ((0x80 ||| ((w >>> 6) &&& 0x3f)) % 256)
      let m4 := store m3 (output + 3) ((0x80 ||| (w &&& 0x3f)) % 256)
      some (m4, output + 4)
  else if wc ≤ 0x3ffffff then
    if outsize < 5 then none
    else
      let m1 := store mem output ((0xf8 ||| (w >>> 24)) % 256)
      let m2 := store m1 (output + 1) ((0x80 ||| ((w >>> 18) &&& 0x3f)) % 256)
      let m3 := store m2 (output + 2) ((0x80 ||| ((w >>> 12) &&& 0x3f)) % 256)
      let m4 := store m3 (output + 3) ((0x80 ||| ((w >>> 6) &&& 0x3f)) % 256)
      let m5 := store m4 (output + 4) ((0x80 ||| (w &&& 0x3f)) % 256)
      some (m5, output + 5)
  else if wc ≤ 0x7fffffff then
    if outsize < 6 then none
    else
      let m1 := store mem output ((0xfc ||| (w >>> 30)) % 256)
      let m2 := store m1 (output + 1) ((0x80 ||| ((w >>> 24) &&& 0x3f)) % 256)
      let m3 := store m2 (output + 2) ((0x80 ||| ((w >>> 18) &&& 0x3f)) % 256)
      let m4 := store m3 (output + 3) ((0x80 ||| ((w >>> 12) &&& 0x3f)) % 256)
      let m5 := store m4 (output + 4) ((0x80 ||| ((w >>> 6) &&& 0x3f)) % 256)
      let m6 := store m5 (output + 5) ((0x80 ||| (w &&& 0x3f)) % 256)
      some (m6, output + 6)
  else none

/-- `utf16_to_wchar(input, &wc, insize)`: `none` is `NULL`; otherwise the
scalar stored in `*wc` and the advanced pointer.  `input[1]` is read only
when `insize >= 2`. -/
def utf16_to_wchar (input : Mem) (iptr insize : Nat) : Option (Int × Nat) :=
  if input iptr &&& 0xfc00 = 0xd800 then
    if insize < 2 ∨ input (iptr + 1) &&& 0xfc00 ≠ 0xdc00 then none
    else
      let wc0 := (input iptr &&& 0x3ff) <<< 10
      let wc1 := wc0 ||| (input (iptr + 1) &&& 0x3ff)
      let wc2 := wc1 + 0x10000
      some ((wc2 : Nat), iptr + 2)
  else
    some ((input iptr : Nat), iptr + 1)

/-- `utf8_to_wchar(input, &wc, insize)`: `none` is `NULL`; otherwise the
scalar stored in `*wc` and the advanced pointer. -/
def utf8_to_wchar (input : Mem) (iptr insize : Nat) : Option (Int × Nat) :=
  if input iptr &&& 0x80 = 0 ∧ insize ≥ 1 then
    some ((input iptr : Nat), iptr + 1)
  else if input iptr &&& 0xe0 = 0xc0 ∧ insize ≥ 2 then
    some (((((input iptr &&& 0x1f) <<< 6) |||
            (input (iptr + 1) &&& 0x3f) : Nat) : Int), iptr + 2)
  else if input iptr &&& 0xf0 = 0xe0 ∧ insize ≥ 3 then
    some (((((input iptr &&& 0x0f) <<< 12) |||
            ((input (iptr + 1) &&& 0x3f) <<< 6) |||
            (input (iptr + 2) &&& 0x3f) : Nat) : Int), iptr + 3)
  else if input iptr &&& 0xf8 = 0xf0 ∧ insize ≥ 4 then
    some (((((input iptr &&& 0x07) <<< 18) |||
            ((input (iptr + 1) &&& 0x3f) <<< 12) |||
            ((input (iptr + 2) &&& 0x3f) <<< 6) |||
            (input (iptr + 3) &&& 0x3f) : Nat) : Int), iptr + 4)
  else if input iptr &&& 0xfc = 0xf8 ∧ insize ≥ 5 then
    some (((((input iptr &&& 0x03) <<< 24) |||
            ((input (iptr + 1) &&& 0x3f) <<< 18) |||
            ((input (iptr + 2) &&& 0x3f) <<< 12) |||
            ((input (iptr + 3) &&& 0x3f) <<< 6) |||
            (input (iptr + 4) &&& 0x3f) : Nat) : Int), iptr + 5)
  else if input iptr &&& 0xfe = 0xfc ∧ insize ≥ 6 then
    some (((((input iptr &&& 0x01) <<< 30) |||
            ((input (iptr + 1) &&& 0x3f) <<< 24) |||
            ((input (iptr + 2) &&& 0x3f) <<< 18) |||
            ((input (iptr + 3) &&& 0x3f) <<< 12) |||
            ((input (iptr + 4) &&& 0x3f) <<< 6) |||
            (input (iptr + 5) &&& 0x3f) : Nat) : Int), iptr + 6)
  else none

/-- `wchar_to_utf16(output, wc, outsize)`: `none` is `NULL`; otherwise the
buffer after the writes and the advanced pointer.  `cpu_to_le16` keeps the
low 16 bits (`% 65536`); past the first test `wc > 0xffff`, so
`wc - 0x10000` is non-negative. -/
def wchar_to_utf16 (mem : Mem) (output : Nat) (wc : Int) (outsize : Nat) :
    Option (Mem × Nat) :=
  if wc ≤ 0xffff then
    if outsize = 0 then none
    else
      let m1 := store mem output (wc % 65536).toNat
      some (m1, output + 1)
  else if outsize < 2 then none
  else
    let w := (wc - 0x10000).toNat
    let m1 := store mem output ((0xd800 ||| ((w >>> 10) &&& 0x3ff)) % 65536)
    let m2 := store m1 (output + 1) ((0xdc00 ||| (w &&& 0x3ff)) % 65536)
    some (m2, output + 2)

/-- What a conversion leaves behind: the returned status, the output buffer,
and the number of elements of the output buffer it has written (every write
goes to the next free offset, so this is one past the last offset written). -/
structure Result where
  status : Int
  mem : Mem
  written : Nat

/-- The `while` loop of `utf16_to_utf8` together with the code after it.
`iptr`, `optr` are the loop variables, `iend = input + insize`,
`oend = output + outsize`, with `input = output = 0`.  The pointer differences
`iend - iptr` and `oend - optr` are taken in `Nat`: neither cursor passes its
end (`utf16_to_wchar_advances`, `utf16_loop_frame`), so they never wrap. -/
def utf16_to_utf8_loop (input : Mem) (iend oend : Nat) (iptr optr : Nat) (mem : Mem) :
    Result :=
  if iptr < iend then
    match h : utf16_to_wchar input iptr (iend - iptr) with
    | none => ⟨-EILSEQ, mem, optr⟩
    | some (wc, iptr') =>
      match wchar_to_utf8 mem optr wc (oend - optr) with
      | none => ⟨-ENAMETOOLONG, mem, optr⟩
      | some (mem', optr') =>
        if wc = 0 then ⟨0, mem', optr'⟩
        else utf16_to_utf8_loop input iend oend iptr' optr' mem'
  else if optr ≥ oend then ⟨-ENAMETOOLONG, mem, optr⟩
  else ⟨0, store mem optr 0, optr + 1⟩
termination_by iend - iptr
decreasing_by
  unfold utf16_to_wchar at h
  split at h
  · split at h
    · simp at h
    · simp at h; omega
  · simp at h; omega

/-- `utf16_to_utf8(output, input, outsize, insize)` run on the output buffer
`mem`. -/
def utf16_to_utf8 (mem : Mem) (input : Mem) (outsize insize : Nat) : Result :=
  utf16_to_utf8_loop input insize outsize 0 0 mem

/-- The code of `utf8_to_utf16` after its loop, reached when the input is
exhausted and by the `break`. -/
def utf8_to_utf16_end (oend optr : Nat) (mem : Mem) : Result :=
  if optr ≥ oend then ⟨-ENAMETOOLONG, mem, optr⟩
  else ⟨0, store mem optr 0, optr + 1⟩

/-- The `while` loop of `utf8_to_utf16`, continued by the code after it; the
`break` on `wc == 0` goes to the same code.  Pointer differences as in
`utf16_to_utf8_loop`. -/
def utf8_to_utf16_loop (input : Mem) (iend oend : Nat) (iptr optr : Nat) (mem : Mem) :
    Result :=
  if iptr < iend then
    match h : utf8_to_wchar input iptr (iend - iptr) with
    | none => ⟨-EILSEQ, mem, optr⟩
    | some (wc, iptr') =>
      match wchar_to_utf16 mem optr wc (oend - optr) with
      | none => ⟨-ENAMETOOLONG, mem, optr⟩
      | some (mem', optr') =>
        if wc = 0 then utf8_to_utf16_end oend optr' mem'
        else utf8_to_utf16_loop input iend oend iptr' optr' mem'
  else utf8_to_utf16_end oend optr mem
termination_by iend - iptr
decreasing_by
  unfold utf8_to_wchar at h
  repeat' split at h
  all_goals simp at h
  all_goals omega

/-- `utf8_to_utf16(output, input, outsize, insize)` run on the output buffer
`mem`. -/
def utf8_to_utf16 (mem : Mem) (input : Mem) (outsize insize : Nat) : Result :=
  utf8_to_utf16_loop input insize outsize 0 0 mem

/-- The buffer holding the elements of `l` from offset 0, and 0 elsewhere. -/
def ofList (l : List Nat) : Mem := fun i => l.getD i 0

/-- The `n` elements of a buffer from offset `start`. -/
def readBuf (m : Mem) (start n : Nat) : List Nat := (List.range' start n).map m


/-- The assignment of the elements of a list to consecutive offsets from `i`. -/
def storeList (m : Mem) (i : Nat) : List Nat → Mem
  | [] => m
  | b :: bs => storeList (store m i b) (i + 1) bs

/-- The encoding table of the specification (section 4.2): the UTF-8 bytes
of a scalar, lead byte first, every continuation byte `0x80 | low6bits`;
no bytes for a value above `0x7FFFFFFF`. -/
def spec_utf8_encode (wc : Nat) : List Nat :=
  if wc ≤ 0x7F then [wc]
  else if wc ≤ 0x7FF then
    [0xC0 ||| (wc >>> 6), 0x80 ||| (wc &&& 0x3F)]
  else if wc ≤ 0xFFFF then
    [0xE0 ||| (wc >>> 12), 0x80 ||| ((wc >>> 6) &&& 0x3F), 0x80 ||| (wc &&& 0x3F)]
  else if wc ≤ 0x1FFFFF then
    [0xF0 ||| (wc >>> 18), 0x80 ||| ((wc >>> 12) &&& 0x3F),
      0x80 ||| ((wc >>> 6) &&& 0x3F), 0x80 ||| (wc &&& 0x3F)]
  else if wc ≤ 0x3FFFFFF then
    [0xF8 ||| (wc >>> 24), 0x80 ||| ((wc >>> 18) &&& 0x3F),
      0x80 ||| ((wc >>> 12) &&& 0x3F), 0x80 ||| ((wc >>> 6) &&& 0x3F),
      0x80 ||| (wc &&& 0x3F)]
  else if wc ≤ 0x7FFFFFFF then
    [0xFC ||| (wc >>> 30), 0x80 ||| ((wc >>> 24) &&& 0x3F),
      0x80 ||| ((wc >>> 18) &&& 0x3F), 0x80 ||| ((wc >>> 12) &&& 0x3F),
      0x80 ||| ((wc >>> 6) &&& 0x3F), 0x80 ||| (wc &&& 0x3F)]
  else []

/-- A high surrogate, `0xD800..0xDBFF`. -/
def isHighSurrogate (u : Nat) : Prop := 0xD800 ≤ u ∧ u ≤ 0xDBFF

/-- A low surrogate, `0xDC00..0xDFFF`. -/
def isLowSurrogate (u : Nat) : Prop := 0xDC00 ≤ u ∧ u ≤ 0xDFFF

instance (u : Nat) : Decidable (isHighSurrogate u) := by
  unfold isHighSurrogate; infer_instance

instance (u : Nat) : Decidable (isLowSurrogate u) := by
  unfold isLowSurrogate; infer_instance

/-- The scalars of a UTF-16 sequence as the specification decodes it
(section 4.1): a high surrogate and the unit after it combine to
`((high & 0x3FF) << 10 | (low & 0x3FF)) + 0x10000`, any other unit is its own
scalar.  Decoding ends at a high surrogate that is the last unit. -/
def spec_utf16_scalars : List Nat → List Nat
  | [] => []
  | [u] => if isHighSurrogate u then [] else [u]
  | u :: l :: rest =>
    if isHighSurrogate u then
      ((((u &&& 0x3FF) <<< 10) ||| (l &&& 0x3FF)) + 0x10000) :: spec_utf16_scalars rest
    else u :: spec_utf16_scalars (l :: rest)

/-- The invariant of a run started with the write cursor at `optr`: the cursor
only advances and stays inside the capacity, nothing outside the offsets
`optr ≤ i < written` changes, and a run that succeeds ends with a zero element. -/
def FrameOk (oend optr : Nat) (mem : Mem) (r : Result) : Prop :=
  optr ≤ r.written ∧ r.written ≤ oend ∧
    (∀ i, i < optr ∨ r.written ≤ i → r.mem i = mem i) ∧
    (r.status = 0 → optr < r.written ∧ r.mem (r.written - 1) = 0)

/-- The UTF-8 encoding of a sequence of scalars: the encodings of the scalars
one after the other. -/
def spec_utf8_string : List Nat → List Nat
  | [] => []
  | v :: vs => spec_utf8_encode v ++ spec_utf8_string vs

/-- The UTF-8 bytes of a UTF-16 sequence: its scalars, each encoded by the
table. -/
def spec_utf16_to_utf8 (units : List Nat) : List Nat :=
  spec_utf8_string (spec_utf16_scalars units)

/-- The length announced by a UTF-8 lead byte, by the six lead patterns of the
specification (section 4.3): `0xxxxxxx`, `110xxxxx`, `1110xxxx`, `11110xxx`,
`111110xx`, `1111110x`; `none` for a byte that matches none of them. -/
def spec_utf8_lead_length (b : Nat) : Option Nat :=
  if b ≤ 0x7F then some 1
  else if 0xC0 ≤ b ∧ b ≤ 0xDF then some 2
  else if 0xE0 ≤ b ∧ b ≤ 0xEF then some 3
  else if 0xF0 ≤ b ∧ b ≤ 0xF7 then some 4
  else if 0xF8 ≤ b ∧ b ≤ 0xFB then some 5
  else if 0xFC ≤ b ∧ b ≤ 0xFD then some 6
  else none

/-- The loop of `utf16_length(str)`, `while (le16_to_cpu(str[i])) i++;
return i;`, from the index `i`.  The scan has no bound of its own, so the
model counts the tests of the loop condition: `fuel` of them are allowed, and
`none` means that all were spent without meeting a zero unit. -/
def utf16_length_loop (str : Mem) : Nat → Nat → Option Nat
  | 0, _ => none
  | fuel + 1, i => if str i ≠ 0 then utf16_length_loop str fuel (i + 1) else some i

/-- `utf16_length(str)` with `size_t i = 0`, run for at most `fuel` tests of the
loop condition. -/
def utf16_length (fuel : Nat) (str : Mem) : Option Nat :=
  utf16_length_loop str fuel 0

/-- The length of the UTF-8 encoding of a scalar by the ranges of the encoding
table (section 4.2). -/
def spec_utf8_length (wc : Nat) : Nat :=
  if wc ≤ 0x7F then 1
  else if wc ≤ 0x7FF then 2
  else if wc ≤ 0xFFFF then 3
  else if wc ≤ 0x1FFFFF then 4
  else if wc ≤ 0x3FFFFFF then 5
  else 6

/-- The payload bits of a lead byte that announces `len` bytes (section 4.3):
its low 7, 5, 4, 3, 2, 1 bits for `len` = 1, 2, 3, 4, 5, 6. -/
def spec_utf8_lead_payload (b len : Nat) : Nat :=
  match len with
  | 1 => b &&& 0x7F
  | 2 => b &&& 0x1F
  | 3 => b &&& 0x0F
  | 4 => b &&& 0x07
  | 5 => b &&& 0x03
  | _ => b &&& 0x01

/-- The scalar built from the payload of the lead byte and the following bytes
(section 4.3): each following byte appends its low 6 bits. -/
def spec_utf8_scalar (payload : Nat) : List Nat → Nat
  | [] => payload
  | c :: cs => spec_utf8_scalar ((payload <<< 6) ||| (c &&& 0x3F)) cs

/-! ## Unfolding of the loops -/

theorem store_apply (m : Mem) (i v j : Nat) :
    store m i v j = if j = i then v else m j := rfl

theorem store_self (m : Mem) (i v : Nat) : store m i v i = v := by
  simp [store]

theorem store_of_ne (m : Mem) (i v j : Nat) (h : j ≠ i) : store m i v j = m j := by
  simp [store, h]

theorem utf16_loop_step (input : Mem) (iend oend iptr optr : Nat) (mem : Mem)
    (h : iptr < iend) :
    utf16_to_utf8_loop input iend oend iptr optr mem =
      match utf16_to_wchar input iptr (iend - iptr) with
      | none => ⟨-EILSEQ, mem, optr⟩
      | some (wc, iptr') =>
        match wchar_to_utf8 mem optr wc (oend - optr) with
        | none => ⟨-ENAMETOOLONG, mem, optr⟩
        | some (mem', optr') =>
          if wc = 0 then ⟨0, mem', optr'⟩
          else utf16_to_utf8_loop input iend oend iptr' optr' mem' := by
  rw [utf16_to_utf8_loop, if_pos h]
  split <;> simp_all

theorem utf16_loop_done (input : Mem) (iend oend iptr optr : Nat) (mem : Mem)
    (h : ¬ iptr < iend) :
    utf16_to_utf8_loop input iend oend iptr optr mem =
      if optr ≥ oend then ⟨-ENAMETOOLONG, mem, optr⟩
      else ⟨0, store mem optr 0, optr + 1⟩ := by
  rw [utf16_to_utf8_loop, if_neg h]

theorem utf8_loop_step (input : Mem) (iend oend iptr optr : Nat) (mem : Mem)
    (h : iptr < iend) :
    utf8_to_utf16_loop input iend oend iptr optr mem =
      match utf8_to_wchar input iptr (iend - iptr) with
      | none => ⟨-EILSEQ, mem, optr⟩
      | some (wc, iptr') =>
        match wchar_to_utf16 mem optr wc (oend - optr) with
        | none => ⟨-ENAMETOOLONG, mem, optr⟩
        | some (mem', optr') =>
          if wc = 0 then utf8_to_utf16_end oend optr' mem'
          else utf8_to_utf16_loop input iend oend iptr' optr' mem' := by
  rw [utf8_to_utf16_loop, if_pos h]
  split <;> simp_all

theorem utf8_loop_done (input : Mem) (iend oend iptr optr : Nat) (mem : Mem)
    (h : ¬ iptr < iend) :
    utf8_to_utf16_loop input iend oend iptr optr mem =
      utf8_to_utf16_end oend optr mem := by
  rw [utf8_to_utf16_loop, if_neg h]

/-! ## The encoders write inside their capacity -/

theorem wchar_to_utf8_frame {mem mem' : Mem} {output output' outsize : Nat} {wc : Int}
    (h : wchar_to_utf8 mem output wc outsize = some (mem', output')) :
    output < output' ∧ output' ≤ output + outsize ∧
      ∀ i, i < output ∨ output' ≤ i → mem' i = mem i := by
  unfold wchar_to_utf8 at h
  repeat' split at h
  all_goals simp only [Option.some.injEq, Prod.mk.injEq, reduceCtorEq] at h
  all_goals obtain ⟨rfl, rfl⟩ := h
  all_goals refine ⟨by omega, by omega, ?_⟩
  all_goals intro i hi
  all_goals simp only [store_apply]
  all_goals repeat' split
  all_goals first | rfl | omega

theorem wchar_to_utf8_zero {mem mem' : Mem} {output output' outsize : Nat}
    (h : wchar_to_utf8 mem output 0 outsize = some (mem', output')) :
    output' = output + 1 ∧ mem' output = 0 := by
  unfold wchar_to_utf8 at h
  simp at h
  obtain ⟨_, rfl, rfl⟩ := h
  simp [store]

theorem wchar_to_utf16_frame {mem mem' : Mem} {output output' outsize : Nat} {wc : Int}
    (h : wchar_to_utf16 mem output wc outsize = some (mem', output')) :
    output < output' ∧ output' ≤ output + outsize ∧
      ∀ i, i < output ∨ output' ≤ i → mem' i = mem i := by
  unfold wchar_to_utf16 at h
  repeat' split at h
  all_goals simp only [Option.some.injEq, Prod.mk.injEq, reduceCtorEq] at h
  all_goals obtain ⟨rfl, rfl⟩ := h
  all_goals refine ⟨by omega, by omega, ?_⟩
  all_goals intro i hi
  all_goals simp only [store_apply]
  all_goals repeat' split
  all_goals first | rfl | omega

theorem wchar_to_utf16_zero {mem mem' : Mem} {output output' outsize : Nat}
    (h : wchar_to_utf16 mem output 0 outsize = some (mem', output')) :
    output' = output + 1 ∧ mem' output = 0 := by
  unfold wchar_to_utf16 at h
  simp at h
  obtain ⟨_, rfl, rfl⟩ := h
  simp [store]

/-! ## Frame and termination invariants of the drivers -/

theorem utf16_loop_frame (input : Mem) (iend oend iptr optr : Nat) (mem : Mem) :
    optr ≤ oend → FrameOk oend optr mem (utf16_to_utf8_loop input iend oend iptr optr mem) := by
  refine utf16_to_utf8_loop.induct input iend oend
    (fun iptr optr mem => optr ≤ oend →
      FrameOk oend optr mem (utf16_to_utf8_loop input iend oend iptr optr mem))
    ?_ ?_ ?_ ?_ ?_ ?_ iptr optr mem
  · intro iptr optr mem hlt hdec ho
    rw [utf16_loop_step _ _ _ _ _ _ hlt, hdec]
    simp [FrameOk, EILSEQ, ho]
  · intro iptr optr mem hlt wc iptr' hdec henc ho
    rw [utf16_loop_step _ _ _ _ _ _ hlt, hdec]
    simp only [henc]
    simp [FrameOk, ENAMETOOLONG, ho]
  · intro iptr optr mem hlt iptr' mem' optr' hdec henc ho
    rw [utf16_loop_step _ _ _ _ _ _ hlt, hdec]
    simp only [henc, if_true]
    have hf := wchar_to_utf8_frame henc
    have hz := wchar_to_utf8_zero henc
    refine ⟨by simp only; omega, by simp only; omega, fun i hi => hf.2.2 i hi, fun _ => ?_⟩
    refine ⟨hf.1, ?_⟩
    simp only [hz.1, Nat.add_sub_cancel]
    exact hz.2
  · intro iptr optr mem hlt wc iptr' hdec mem' optr' henc hwc ih ho
    rw [utf16_loop_step _ _ _ _ _ _ hlt, hdec]
    simp only [henc, if_neg hwc]
    have hf := wchar_to_utf8_frame henc
    obtain ⟨h1, h2, h3, h4⟩ := ih (by omega)
    refine ⟨by omega, h2, fun i hi => ?_, fun h0 => ⟨by have := (h4 h0).1; omega, (h4 h0).2⟩⟩
    rw [h3 i (by omega), hf.2.2 i (by omega)]
  · intro iptr optr mem hlt hge ho
    rw [utf16_loop_done _ _ _ _ _ _ hlt, if_pos hge]
    simp [FrameOk, ENAMETOOLONG, ho]
  · intro iptr optr mem hlt hge ho
    rw [utf16_loop_done _ _ _ _ _ _ hlt, if_neg hge]
    refine ⟨by simp only; omega, by simp only; omega, fun i hi => ?_, fun _ => ?_⟩
    · simp only at hi
      exact store_of_ne _ _ _ _ (by omega)
    · simp [store_self]

theorem utf8_end_frame (oend optr : Nat) (mem : Mem) (ho : optr ≤ oend) :
    FrameOk oend optr mem (utf8_to_utf16_end oend optr mem) := by
  unfold utf8_to_utf16_end
  split
  · simp [FrameOk, ENAMETOOLONG, ho]
  · refine ⟨by simp only; omega, by simp only; omega, fun i hi => ?_, fun _ => ?_⟩
    · simp only at hi
      exact store_of_ne _ _ _ _ (by omega)
    · simp [store_self]

theorem utf8_loop_frame (input : Mem) (iend oend iptr optr : Nat) (mem : Mem) :
    optr ≤ oend → FrameOk oend optr mem (utf8_to_utf16_loop input iend oend iptr optr mem) := by
  refine utf8_to_utf16_loop.induct input iend oend
    (fun iptr optr mem => optr ≤ oend →
      FrameOk oend optr mem (utf8_to_utf16_loop input iend oend iptr optr mem))
    ?_ ?_ ?_ ?_ ?_ iptr optr mem
  · intro iptr optr mem hlt hdec ho
    rw [utf8_loop_step _ _ _ _ _ _ hlt, hdec]
    simp [FrameOk, EILSEQ, ho]
  · intro iptr optr mem hlt wc iptr' hdec henc ho
    rw [utf8_loop_step _ _ _ _ _ _ hlt, hdec]
    simp only [henc]
    simp [FrameOk, ENAMETOOLONG, ho]
  · intro iptr optr mem hlt iptr' mem' optr' hdec henc ho
    rw [utf8_loop_step _ _ _ _ _ _ hlt, hdec]
    simp only [henc, if_true]
    have hf := wchar_to_utf16_frame henc
    obtain ⟨h1, h2, h3, h4⟩ := utf8_end_frame oend optr' mem' (by omega)
    refine ⟨by omega, h2, fun i hi => ?_, fun h0 => ⟨by have := (h4 h0).1; omega, (h4 h0).2⟩⟩
    rw [h3 i (by omega), hf.2.2 i (by omega)]
  · intro iptr optr mem hlt wc iptr' hdec mem' optr' henc hwc ih ho
    rw [utf8_loop_step _ _ _ _ _ _ hlt, hdec]
    simp only [henc, if_neg hwc]
    have hf := wchar_to_utf16_frame henc
    obtain ⟨h1, h2, h3, h4⟩ := ih (by omega)
    refine ⟨by omega, h2, fun i hi => ?_, fun h0 => ⟨by have := (h4 h0).1; omega, (h4 h0).2⟩⟩
    rw [h3 i (by omega), hf.2.2 i (by omega)]
  · intro iptr optr mem hlt ho
    rw [utf8_loop_done _ _ _ _ _ _ hlt]
    exact utf8_end_frame oend optr mem ho

/-! ## Claims on the drivers: termination, capacity, empty input -/

/-- C3: every successful conversion is terminated. If `utf16_to_utf8` returns 0
it has written `n` bytes with `1 ≤ n ≤ outsize` and byte `n - 1` is `0x00`; if
`utf8_to_utf16` returns 0 it has written `n` code units with `1 ≤ n ≤ outsize`
and unit `n - 1` is `0x0000`. -/
theorem success_is_terminated (mem input : Mem) (outsize insize : Nat) :
    ((utf16_to_utf8 mem input outsize insize).status = 0 →
      1 ≤ (utf16_to_utf8 mem input outsize insize).written ∧
      (utf16_to_utf8 mem input outsize insize).written ≤ outsize ∧
      (utf16_to_utf8 mem input outsize insize).mem
        ((utf16_to_utf8 mem input outsize insize).written - 1) = 0) ∧
    ((utf8_to_utf16 mem input outsize insize).status = 0 →
      1 ≤ (utf8_to_utf16 mem input outsize insize).written ∧
      (utf8_to_utf16 mem input outsize insize).written ≤ outsize ∧
      (utf8_to_utf16 mem input outsize insize).mem
        ((utf8_to_utf16 mem input outsize insize).written - 1) = 0) := by
  obtain ⟨_, a2, _, a4⟩ := utf16_loop_frame input insize outsize 0 0 mem (Nat.zero_le _)
  obtain ⟨_, b2, _, b4⟩ := utf8_loop_frame input insize outsize 0 0 mem (Nat.zero_le _)
  exact ⟨fun h => ⟨(a4 h).1, a2, (a4 h).2⟩, fun h => ⟨(b4 h).1, b2, (b4 h).2⟩⟩

/-- Witness of C3: `{0x0041}` converted either way into a buffer of two
elements that held `0xFF` succeeds, writes two elements and the second is 0. -/
theorem success_is_terminated_witness :
    ((utf16_to_utf8 (fun _ => 0xFF) (ofList [0x41]) 2 1).status = 0 ∧
      (utf16_to_utf8 (fun _ => 0xFF) (ofList [0x41]) 2 1).written = 2 ∧
      (utf16_to_utf8 (fun _ => 0xFF) (ofList [0x41]) 2 1).mem 1 = 0) ∧
    ((utf8_to_utf16 (fun _ => 0xFF) (ofList [0x41]) 2 1).status = 0 ∧
      (utf8_to_utf16 (fun _ => 0xFF) (ofList [0x41]) 2 1).written = 2 ∧
      (utf8_to_utf16 (fun _ => 0xFF) (ofList [0x41]) 2 1).mem 1 = 0) := by
  have h := success_is_terminated (fun _ => 0xFF) (ofList [0x41]) 2 1
  have e16 : utf16_to_utf8 (fun _ => 0xFF) (ofList [0x41]) 2 1 =
      ⟨0, store (store (fun _ => 0xFF) 0 0x41) 1 0, 2⟩ := by
    simp +decide [utf16_to_utf8, utf16_loop_step, utf16_loop_done, utf16_to_wchar,
      wchar_to_utf8, ofList]
  have e8 : utf8_to_utf16 (fun _ => 0xFF) (ofList [0x41]) 2 1 =
      ⟨0, store (store (fun _ => 0xFF) 0 0x41) 1 0, 2⟩ := by
    simp +decide [utf8_to_utf16, utf8_loop_step, utf8_loop_done, utf8_to_utf16_end,
      utf8_to_wchar, wchar_to_utf16, ofList]
  rw [e16, e8] at h ⊢
  exact ⟨⟨rfl, rfl, (h.1 rfl).2.2⟩, ⟨rfl, rfl, (h.2 rfl).2.2⟩⟩

/-- C4: neither driver writes outside the caller's capacity, whatever the
status it returns: the number of elements written is at most `outsize`, every
offset at or beyond `outsize` keeps its content, and so does every offset at
or beyond the final write cursor (one past the last element written, the
terminator included). The buffer `mem` before the call is arbitrary, and the
code never reads it, so an element that keeps its content was not written. -/
theorem writes_within_capacity (mem input : Mem) (outsize insize : Nat) :
    ((utf16_to_utf8 mem input outsize insize).written ≤ outsize ∧
      (∀ i, outsize ≤ i → (utf16_to_utf8 mem input outsize insize).mem i = mem i) ∧
      (∀ i, (utf16_to_utf8 mem input outsize insize).written ≤ i →
        (utf16_to_utf8 mem input outsize insize).mem i = mem i)) ∧
    ((utf8_to_utf16 mem input outsize insize).written ≤ outsize ∧
      (∀ i, outsize ≤ i → (utf8_to_utf16 mem input outsize insize).mem i = mem i) ∧
      (∀ i, (utf8_to_utf16 mem input outsize insize).written ≤ i →
        (utf8_to_utf16 mem input outsize insize).mem i = mem i)) := by
  obtain ⟨_, a2, a3, _⟩ := utf16_loop_frame input insize outsize 0 0 mem (Nat.zero_le _)
  obtain ⟨_, b2, b3, _⟩ := utf8_loop_frame input insize outsize 0 0 mem (Nat.zero_le _)
  refine ⟨⟨a2, fun i hi => a3 i (Or.inr ?_), fun i hi => a3 i (Or.inr hi)⟩,
    ⟨b2, fun i hi => b3 i (Or.inr ?_), fun i hi => b3 i (Or.inr hi)⟩⟩
  · exact Nat.le_trans a2 hi
  · exact Nat.le_trans b2 hi

/-- C10: on an empty input (`insize = 0`) both drivers, given `outsize ≥ 1`,
return 0 and write exactly one element, a zero at offset 0; given
`outsize = 0` both return `-ENAMETOOLONG` and write nothing. -/
theorem empty_input (mem input : Mem) (outsize : Nat) :
    (1 ≤ outsize →
      ((utf16_to_utf8 mem input outsize 0).status = 0 ∧
        (utf16_to_utf8 mem input outsize 0).written = 1 ∧
        (utf16_to_utf8 mem input outsize 0).mem 0 = 0 ∧
        ∀ i, i ≠ 0 → (utf16_to_utf8 mem input outsize 0).mem i = mem i) ∧
      ((utf8_to_utf16 mem input outsize 0).status = 0 ∧
        (utf8_to_utf16 mem input outsize 0).written = 1 ∧
        (utf8_to_utf16 mem input outsize 0).mem 0 = 0 ∧
        ∀ i, i ≠ 0 → (utf8_to_utf16 mem input outsize 0).mem i = mem i)) ∧
    ((utf16_to_utf8 mem input 0 0).status = -ENAMETOOLONG ∧
      (utf16_to_utf8 mem input 0 0).written = 0 ∧
      (utf16_to_utf8 mem input 0 0).mem = mem) ∧
    ((utf8_to_utf16 mem input 0 0).status = -ENAMETOOLONG ∧
      (utf8_to_utf16 mem input 0 0).written = 0 ∧
      (utf8_to_utf16 mem input 0 0).mem = mem) := by
  refine ⟨fun h => ?_, ?_, ?_⟩
  · have h16 : utf16_to_utf8 mem input outsize 0 = ⟨0, store mem 0 0, 1⟩ := by
      unfold utf16_to_utf8
      rw [utf16_loop_done _ _ _ _ _ _ (Nat.lt_irrefl 0), if_neg (by omega)]
    have h8 : utf8_to_utf16 mem input outsize 0 = ⟨0, store mem 0 0, 1⟩ := by
      unfold utf8_to_utf16
      rw [utf8_loop_done _ _ _ _ _ _ (Nat.lt_irrefl 0)]
      unfold utf8_to_utf16_end
      rw [if_neg (by omega)]
    rw [h16, h8]
    exact ⟨⟨rfl, rfl, store_self mem 0 0, fun i hi => store_of_ne mem 0 0 i hi⟩,
      ⟨rfl, rfl, store_self mem 0 0, fun i hi => store_of_ne mem 0 0 i hi⟩⟩
  · have h16 : utf16_to_utf8 mem input 0 0 = ⟨-ENAMETOOLONG, mem, 0⟩ := by
      unfold utf16_to_utf8
      rw [utf16_loop_done _ _ _ _ _ _ (Nat.lt_irrefl 0), if_pos (Nat.le_refl 0)]
    rw [h16]
    exact ⟨rfl, rfl, rfl⟩
  · have h8 : utf8_to_utf16 mem input 0 0 = ⟨-ENAMETOOLONG, mem, 0⟩ := by
      unfold utf8_to_utf16
      rw [utf8_loop_done _ _ _ _ _ _ (Nat.lt_irrefl 0)]
      unfold utf8_to_utf16_end
      rw [if_pos (Nat.le_refl 0)]
    rw [h8]
    exact ⟨rfl, rfl, rfl⟩

/-- Witness of C10: empty input into a one-element buffer that held `0xFF`. -/
theorem empty_input_witness :
    (1 ≤ 1) ∧
    ((utf16_to_utf8 (fun _ => 0xFF) (ofList []) 1 0).status = 0 ∧
      (utf16_to_utf8 (fun _ => 0xFF) (ofList []) 1 0).written = 1 ∧
      (utf16_to_utf8 (fun _ => 0xFF) (ofList []) 1 0).mem 0 = 0 ∧
      ∀ i, i ≠ 0 → (utf16_to_utf8 (fun _ => 0xFF) (ofList []) 1 0).mem i = 0xFF) ∧
    ((utf8_to_utf16 (fun _ => 0xFF) (ofList []) 1 0).status = 0 ∧
      (utf8_to_utf16 (fun _ => 0xFF) (ofList []) 1 0).written = 1 ∧
      (utf8_to_utf16 (fun _ => 0xFF) (ofList []) 1 0).mem 0 = 0 ∧
      ∀ i, i ≠ 0 → (utf8_to_utf16 (fun _ => 0xFF) (ofList []) 1 0).mem i = 0xFF) :=
  ⟨by decide, (empty_input (fun _ => 0xFF) (ofList []) 1).1 (by decide)⟩

/-! ## Bit operations as arithmetic -/

theorem and_shifted_mask (u j k : Nat) :
    u &&& ((2 ^ j - 1) <<< k) = (u / 2 ^ k % 2 ^ j) * 2 ^ k := by
  have h2 : (u / 2 ^ k % 2 ^ j) * 2 ^ k = ((u >>> k) &&& (2 ^ j - 1)) <<< k := by
    rw [Nat.shiftLeft_eq, Nat.shiftRight_eq_div_pow, Nat.and_pow_two_sub_one_eq_mod]
  rw [h2]
  apply Nat.eq_of_testBit_eq
  intro i
  simp only [Nat.testBit_and, Nat.testBit_shiftLeft, Nat.testBit_shiftRight]
  by_cases h : i ≥ k
  · have e : k + (i - k) = i := by omega
    simp [h, e]
  · simp [h]

theorem and_fc00 (u : Nat) : u &&& 0xfc00 = (u / 1024 % 64) * 1024 :=
  and_shifted_mask u 6 10

theorem and_80 (u : Nat) : u &&& 0x80 = (u / 128 % 2) * 128 := and_shifted_mask u 1 7

theorem and_e0 (u : Nat) : u &&& 0xe0 = (u / 32 % 8) * 32 := and_shifted_mask u 3 5

theorem and_f0 (u : Nat) : u &&& 0xf0 = (u / 16 % 16) * 16 := and_shifted_mask u 4 4

theorem and_f8 (u : Nat) : u &&& 0xf8 = (u / 8 % 32) * 8 := and_shifted_mask u 5 3

theorem and_fc (u : Nat) : u &&& 0xfc = (u / 4 % 64) * 4 := and_shifted_mask u 6 2

theorem and_fe (u : Nat) : u &&& 0xfe = (u / 2 % 128) * 2 := and_shifted_mask u 7 1

theorem and_3ff (u : Nat) : u &&& 0x3ff = u % 1024 := Nat.and_pow_two_sub_one_eq_mod u 10

theorem and_3f (u : Nat) : u &&& 0x3f = u % 64 := Nat.and_pow_two_sub_one_eq_mod u 6

theorem and_1f (u : Nat) : u &&& 0x1f = u % 32 := Nat.and_pow_two_sub_one_eq_mod u 5

theorem and_0f (u : Nat) : u &&& 0x0f = u % 16 := Nat.and_pow_two_sub_one_eq_mod u 4

theorem and_07 (u : Nat) : u &&& 0x07 = u % 8 := Nat.and_pow_two_sub_one_eq_mod u 3

theorem and_03 (u : Nat) : u &&& 0x03 = u % 4 := Nat.and_pow_two_sub_one_eq_mod u 2

theorem and_01 (u : Nat) : u &&& 0x01 = u % 2 := Nat.and_pow_two_sub_one_eq_mod u 1

theorem or_eq_add (x c k : Nat) (hx : 2 ^ k ∣ x) (hc : c < 2 ^ k) : x ||| c = x + c := by
  obtain ⟨a, rfl⟩ := hx
  exact (Nat.mul_add_lt_is_or hc a).symm

theorem cont_byte (x : Nat) : (0x80 ||| (x &&& 0x3f)) % 256 = 128 + x % 64 := by
  rw [and_3f, or_eq_add 0x80 (x % 64) 6 ⟨2, by norm_num⟩ (by omega)]
  omega

theorem cont_byte_spec (x : Nat) : 0x80 ||| (x &&& 0x3f) = 128 + x % 64 := by
  rw [and_3f, or_eq_add 0x80 (x % 64) 6 ⟨2, by norm_num⟩ (by omega)]

theorem lead2 (t : Nat) (h : t < 32) : 0xc0 ||| t = 192 + t :=
  or_eq_add 0xc0 t 5 ⟨6, by norm_num⟩ (by omega)

theorem lead3 (t : Nat) (h : t < 16) : 0xe0 ||| t = 224 + t :=
  or_eq_add 0xe0 t 4 ⟨14, by norm_num⟩ (by omega)

theorem lead4 (t : Nat) (h : t < 8) : 0xf0 ||| t = 240 + t :=
  or_eq_add 0xf0 t 3 ⟨30, by norm_num⟩ (by omega)

theorem lead5 (t : Nat) (h : t < 4) : 0xf8 ||| t = 248 + t :=
  or_eq_add 0xf8 t 2 ⟨62, by norm_num⟩ (by omega)

theorem lead6 (t : Nat) (h : t < 2) : 0xfc ||| t = 252 + t :=
  or_eq_add 0xfc t 1 ⟨126, by norm_num⟩ (by omega)

theorem shr6 (w : Nat) : w >>> 6 = w / 64 := Nat.shiftRight_eq_div_pow w 6

theorem shr12 (w : Nat) : w >>> 12 = w / 4096 := Nat.shiftRight_eq_div_pow w 12

theorem shr18 (w : Nat) : w >>> 18 = w / 262144 := Nat.shiftRight_eq_div_pow w 18

theorem shr24 (w : Nat) : w >>> 24 = w / 16777216 := Nat.shiftRight_eq_div_pow w 24

theorem shr30 (w : Nat) : w >>> 30 = w / 1073741824 := Nat.shiftRight_eq_div_pow w 30

theorem shr10 (w : Nat) : w >>> 10 = w / 1024 := Nat.shiftRight_eq_div_pow w 10

/-! ## The UTF-8 encoder against the encoding table -/

theorem spec_utf8_encode_arith (w : Nat) (hw : w ≤ 0x7fffffff) :
    spec_utf8_encode w =
      if w ≤ 0x7f then [w]
      else if w ≤ 0x7ff then [192 + w / 64, 128 + w % 64]
      else if w ≤ 0xffff then [224 + w / 4096, 128 + w / 64 % 64, 128 + w % 64]
      else if w ≤ 0x1fffff then
        [240 + w / 262144, 128 + w / 4096 % 64, 128 + w / 64 % 64, 128 + w % 64]
      else if w ≤ 0x3ffffff then
        [248 + w / 16777216, 128 + w / 262144 % 64, 128 + w / 4096 % 64,
          128 + w / 64 % 64, 128 + w % 64]
      else
        [252 + w / 1073741824, 128 + w / 16777216 % 64, 128 + w / 262144 % 64,
          128 + w / 4096 % 64, 128 + w / 64 % 64, 128 + w % 64] := by
  unfold spec_utf8_encode
  split_ifs <;>
    simp only [cont_byte_spec, shr6, shr12, shr18, shr24, shr30]
  · rw [lead2 _ (by omega)]
  · rw [lead3 _ (by omega)]
  · rw [lead4 _ (by omega)]
  · rw [lead5 _ (by omega)]
  · rw [lead6 _ (by omega)]

theorem wchar_to_utf8_eq_spec (mem : Mem) (output w outsize : Nat) (hw : w ≤ 0x7fffffff) :
    wchar_to_utf8 mem output (w : Int) outsize =
      if outsize < (spec_utf8_encode w).length then none
      else some (storeList mem output (spec_utf8_encode w),
        output + (spec_utf8_encode w).length) := by
  rw [spec_utf8_encode_arith w hw]
  unfold wchar_to_utf8
  simp only [Int.toNat_ofNat, cont_byte, shr6, shr12, shr18, shr24, shr30]
  by_cases h1 : w ≤ 0x7f
  · have e : ((w : Int) % 256).toNat = w := by omega
    simp only [if_pos h1, if_pos (show (w : Int) ≤ 0x7f by omega), e, storeList,
      List.length_cons, List.length_nil]
  by_cases h2 : w ≤ 0x7ff
  · have e : (0xc0 ||| w / 64) % 256 = 192 + w / 64 := by
      rw [lead2 _ (by omega)]; omega
    simp only [if_neg h1, if_pos h2, if_neg (show ¬ (w : Int) ≤ 0x7f by omega),
      if_pos (show (w : Int) ≤ 0x7ff by omega), e, storeList,
      List.length_cons, List.length_nil]
  by_cases h3 : w ≤ 0xffff
  · have e : (0xe0 ||| w / 4096) % 256 = 224 + w / 4096 := by
      rw [lead3 _ (by omega)]; omega
    simp only [if_neg h1, if_neg h2, if_pos h3, if_neg (show ¬ (w : Int) ≤ 0x7f by omega),
      if_neg (show ¬ (w : Int) ≤ 0x7ff by omega),
      if_pos (show (w : Int) ≤ 0xffff by omega), e, storeList,
      List.length_cons, List.length_nil]
  by_cases h4 : w ≤ 0x1fffff
  · have e : (0xf0 ||| w / 262144) % 256 = 240 + w / 262144 := by
      rw [lead4 _ (by omega)]; omega
    simp only [if_neg h1, if_neg h2, if_neg h3, if_pos h4,
      if_neg (show ¬ (w : Int) ≤ 0x7f by omega),
      if_neg (show ¬ (w : Int) ≤ 0x7ff by omega),
      if_neg (show ¬ (w : Int) ≤ 0xffff by omega),
      if_pos (show (w : Int) ≤ 0x1fffff by omega), e, storeList,
      List.length_cons, List.length_nil]
  by_cases h5 : w ≤ 0x3ffffff
  · have e : (0xf8 ||| w / 16777216) % 256 = 248 + w / 16777216 := by
      rw [lead5 _ (by omega)]; omega
    simp only [if_neg h1, if_neg h2, if_neg h3, if_neg h4, if_pos h5,
      if_neg (show ¬ (w : Int) ≤ 0x7f by omega),
      if_neg (show ¬ (w : Int) ≤ 0x7ff by omega),
      if_neg (show ¬ (w : Int) ≤ 0xffff by omega),
      if_neg (show ¬ (w : Int) ≤ 0x1fffff by omega),
      if_pos (show (w : Int) ≤ 0x3ffffff by omega), e, storeList,
      List.length_cons, List.length_nil]
  · have e : (0xfc ||| w / 1073741824) % 256 = 252 + w / 1073741824 := by
      rw [lead6 _ (by omega)]; omega
    simp only [if_neg h1, if_neg h2, if_neg h3, if_neg h4, if_neg h5,
      if_neg (show ¬ (w : Int) ≤ 0x7f by omega),
      if_neg (show ¬ (w : Int) ≤ 0x7ff by omega),
      if_neg (show ¬ (w : Int) ≤ 0xffff by omega),
      if_neg (show ¬ (w : Int) ≤ 0x1fffff by omega),
      if_neg (show ¬ (w : Int) ≤ 0x3ffffff by omega),
      if_pos (show (w : Int) ≤ 0x7fffffff by omega), e, storeList,
      List.length_cons, List.length_nil]

/-! ## The UTF-8 decoder by lead byte -/

theorem dec2 (x y : Nat) :
    ((x &&& 0x1f) <<< 6) ||| (y &&& 0x3f) = x % 32 * 64 + y % 64 := by
  rw [and_1f, and_3f, Nat.shiftLeft_eq]
  exact or_eq_add _ _ 6 ⟨x % 32, Nat.mul_comm _ _⟩ (by omega)

theorem dec3 (x y z : Nat) :
    ((x &&& 0x0f) <<< 12) ||| ((y &&& 0x3f) <<< 6) ||| (z &&& 0x3f) =
      x % 16 * 4096 + y % 64 * 64 + z % 64 := by
  rw [and_0f, and_3f, and_3f, Nat.shiftLeft_eq, Nat.shiftLeft_eq]
  rw [or_eq_add _ _ 12 ⟨x % 16, Nat.mul_comm _ _⟩ (by omega)]
  exact or_eq_add _ _ 6 ⟨x % 16 * 64 + y % 64, by omega⟩ (by omega)

theorem dec4 (x y z t : Nat) :
    ((x &&& 0x07) <<< 18) ||| ((y &&& 0x3f) <<< 12) ||| ((z &&& 0x3f) <<< 6) |||
        (t &&& 0x3f) =
      x % 8 * 262144 + y % 64 * 4096 + z % 64 * 64 + t % 64 := by
  rw [and_07, and_3f, and_3f, and_3f, Nat.shiftLeft_eq, Nat.shiftLeft_eq, Nat.shiftLeft_eq]
  rw [or_eq_add _ _ 18 ⟨x % 8, Nat.mul_comm _ _⟩ (by omega)]
  rw [or_eq_add (x % 8 * 2 ^ 18 + y % 64 * 2 ^ 12) (z % 64 * 2 ^ 6) 12
    ⟨x % 8 * 64 + y % 64, by omega⟩ (by omega)]
  exact or_eq_add _ _ 6 ⟨x % 8 * 4096 + y % 64 * 64 + z % 64, by omega⟩ (by omega)

theorem utf8_to_wchar_len1 (input : Mem) (iptr insize : Nat)
    (hb : input iptr < 0x80) (hn : 1 ≤ insize) :
    utf8_to_wchar input iptr insize = some (((input iptr : Nat) : Int), iptr + 1) := by
  unfold utf8_to_wchar
  simp only [and_80]
  rw [if_pos (by omega)]

theorem utf8_to_wchar_len2 (input : Mem) (iptr insize : Nat)
    (hb : 0xc0 ≤ input iptr ∧ input iptr < 0xe0) (hn : 2 ≤ insize) :
    utf8_to_wchar input iptr insize =
      some (((input iptr % 32 * 64 + input (iptr + 1) % 64 : Nat) : Int), iptr + 2) := by
  unfold utf8_to_wchar
  simp only [and_80, and_e0, dec2]
  rw [if_neg (by omega), if_pos (by omega)]

theorem utf8_to_wchar_len3 (input : Mem) (iptr insize : Nat)
    (hb : 0xe0 ≤ input iptr ∧ input iptr < 0xf0) (hn : 3 ≤ insize) :
    utf8_to_wchar input iptr insize =
      some (((input iptr % 16 * 4096 + input (iptr + 1) % 64 * 64 +
        input (iptr + 2) % 64 : Nat) : Int), iptr + 3) := by
  unfold utf8_to_wchar
  simp only [and_80, and_e0, and_f0, dec3]
  rw [if_neg (by omega), if_neg (by omega), if_pos (by omega)]

theorem utf8_to_wchar_len4 (input : Mem) (iptr insize : Nat)
    (hb : 0xf0 ≤ input iptr ∧ input iptr < 0xf8) (hn : 4 ≤ insize) :
    utf8_to_wchar input iptr insize =
      some (((input iptr % 8 * 262144 + input (iptr + 1) % 64 * 4096 +
        input (iptr + 2) % 64 * 64 + input (iptr + 3) % 64 : Nat) : Int), iptr + 4) := by
  unfold utf8_to_wchar
  simp only [and_80, and_e0, and_f0, and_f8, dec4]
  rw [if_neg (by omega), if_neg (by omega), if_neg (by omega), if_pos (by omega)]

/-! ## Writing a list of elements -/

theorem storeList_frame (bs : List Nat) (m : Mem) (i j : Nat)
    (h : j < i ∨ i + bs.length ≤ j) : storeList m i bs j = m j := by
  induction bs generalizing m i with
  | nil => rfl
  | cons b bs ih =>
    simp only [storeList, List.length_cons] at h ⊢
    rw [ih (store m i b) (i + 1) (by omega)]
    exact store_of_ne _ _ _ _ (by omega)

theorem storeList_read (bs : List Nat) (m : Mem) (i j : Nat) (h : j < bs.length) :
    storeList m i bs (i + j) = bs.getD j 0 := by
  induction bs generalizing m i j with
  | nil => simp at h
  | cons b bs ih =>
    simp only [storeList]
    cases j with
    | zero =>
      rw [storeList_frame bs _ _ _ (Or.inl (by omega))]
      simp [store_self]
    | succ j =>
      have e : i + (j + 1) = i + 1 + j := by omega
      rw [e, ih (store m i b) (i + 1) j (by simpa using h)]
      simp

theorem storeList_append (as bs : List Nat) (m : Mem) (i : Nat) :
    storeList m i (as ++ bs) = storeList (storeList m i as) (i + as.length) bs := by
  induction as generalizing m i with
  | nil => rfl
  | cons a as ih =>
    rw [List.cons_append]
    simp only [storeList, List.length_cons]
    rw [ih (store m i a) (i + 1)]
    have e : i + 1 + as.length = i + (as.length + 1) := by omega
    rw [e]

theorem readBuf_storeList (bs : List Nat) (m : Mem) (i : Nat) :
    readBuf (storeList m i bs) i bs.length = bs := by
  unfold readBuf
  apply List.ext_getElem
  · simp
  · intro n h1 h2
    simp only [List.getElem_map, List.getElem_range']
    have h3 : n < bs.length := h2
    rw [Nat.one_mul, storeList_read bs m i n h3]
    simp [List.getD_eq_getElem?_getD, List.getElem?_eq_getElem h3]

/-! ## The UTF-16 decoder and encoder as arithmetic -/

theorem dec_pair (x y : Nat) :
    ((x &&& 0x3ff) <<< 10) ||| (y &&& 0x3ff) = x % 1024 * 1024 + y % 1024 := by
  rw [and_3ff, and_3ff, Nat.shiftLeft_eq]
  exact or_eq_add _ _ 10 ⟨x % 1024, Nat.mul_comm _ _⟩ (by omega)

theorem surr_hi (t : Nat) : (0xd800 ||| (t &&& 0x3ff)) % 65536 = 0xd800 + t % 1024 := by
  rw [and_3ff, or_eq_add 0xd800 (t % 1024) 10 ⟨54, by norm_num⟩ (by omega)]
  omega

theorem surr_lo (t : Nat) : (0xdc00 ||| (t &&& 0x3ff)) % 65536 = 0xdc00 + t % 1024 := by
  rw [and_3ff, or_eq_add 0xdc00 (t % 1024) 10 ⟨55, by norm_num⟩ (by omega)]
  omega

theorem utf16_to_wchar_single (input : Mem) (iptr insize : Nat)
    (h : input iptr / 1024 % 64 ≠ 54) :
    utf16_to_wchar input iptr insize = some (((input iptr : Nat) : Int), iptr + 1) := by
  unfold utf16_to_wchar
  simp only [and_fc00]
  rw [if_neg (by omega)]

theorem utf16_to_wchar_pair (input : Mem) (iptr insize : Nat)
    (h : input iptr / 1024 % 64 = 54) (hn : 2 ≤ insize)
    (hl : input (iptr + 1) / 1024 % 64 = 55) :
    utf16_to_wchar input iptr insize =
      some (((input iptr % 1024 * 1024 + input (iptr + 1) % 1024 + 0x10000 : Nat) : Int),
        iptr + 2) := by
  unfold utf16_to_wchar
  simp only [and_fc00, dec_pair]
  rw [if_pos (by omega), if_neg (by omega)]

theorem utf16_to_wchar_bad (input : Mem) (iptr insize : Nat)
    (h : input iptr / 1024 % 64 = 54)
    (hb : insize < 2 ∨ input (iptr + 1) / 1024 % 64 ≠ 55) :
    utf16_to_wchar input iptr insize = none := by
  unfold utf16_to_wchar
  simp only [and_fc00]
  rw [if_pos (by omega), if_pos (by omega)]

theorem isHighSurrogate_iff (u : Nat) (hu : u < 65536) :
    isHighSurrogate u ↔ u / 1024 % 64 = 54 := by
  unfold isHighSurrogate; omega

theorem isLowSurrogate_iff (u : Nat) (hu : u < 65536) :
    isLowSurrogate u ↔ u / 1024 % 64 = 55 := by
  unfold isLowSurrogate; omega

/-! ## Scalar round trips -/

/-- C8: UTF-8 scalar round trip. For every scalar `v ≤ 0x10FFFF` outside
`0xD800..0xDFFF` and every `outsize` at least the encoded length,
`wchar_to_utf8` succeeds and writes `k` bytes, `1 ≤ k ≤ 4`, at
`output .. output + k - 1` only; `utf8_to_wchar` run on exactly those `k` bytes
(`insize = k`) succeeds, yields `v` and advances by `k`. -/
theorem utf8_scalar_roundtrip (mem : Mem) (output v outsize : Nat)
    (hv : v ≤ 0x10FFFF) (_hs : ¬ (0xD800 ≤ v ∧ v ≤ 0xDFFF))
    (hcap : (spec_utf8_encode v).length ≤ outsize) :
    ∃ mem' k, k = (spec_utf8_encode v).length ∧ 1 ≤ k ∧ k ≤ 4 ∧
      wchar_to_utf8 mem output (v : Int) outsize = some (mem', output + k) ∧
      (∀ i, i < output ∨ output + k ≤ i → mem' i = mem i) ∧
      utf8_to_wchar mem' output k = some ((v : Int), output + k) := by
  have ha := spec_utf8_encode_arith v (by omega)
  have he := wchar_to_utf8_eq_spec mem output v outsize (by omega)
  rw [if_neg (by omega)] at he
  have hrd := storeList_read (spec_utf8_encode v) mem output
  generalize hm : storeList mem output (spec_utf8_encode v) = m at he hrd
  refine ⟨m, _, rfl, ?_, ?_, he, (wchar_to_utf8_frame he).2.2, ?_⟩
  · rw [ha]; split_ifs <;> simp
  · rw [ha]; split_ifs <;> first | omega | simp
  have r0 := hrd 0
  have r1 := hrd 1
  have r2 := hrd 2
  have r3 := hrd 3
  rw [ha] at r0 r1 r2 r3 ⊢
  by_cases h1 : v ≤ 0x7f
  · simp only [if_pos h1, List.length_cons, List.length_nil] at r0 ⊢
    have r0 := r0 (by omega)
    simp only [Nat.add_zero, List.getD_cons_zero] at r0
    rw [utf8_to_wchar_len1 _ _ _ (by rw [r0]; omega) (Nat.le_refl _), r0]
  by_cases h2 : v ≤ 0x7ff
  · simp only [if_neg h1, if_pos h2, List.length_cons, List.length_nil] at r0 r1 ⊢
    have r0 := r0 (by omega)
    have r1 := r1 (by omega)
    simp only [Nat.add_zero, List.getD_cons_zero, List.getD_cons_succ] at r0 r1
    rw [utf8_to_wchar_len2 _ _ _ (by rw [r0]; omega) (Nat.le_refl _), r0, r1]
    have e : (192 + v / 64) % 32 * 64 + (128 + v % 64) % 64 = v := by omega
    rw [e]
  by_cases h3 : v ≤ 0xffff
  · simp only [if_neg h1, if_neg h2, if_pos h3, List.length_cons, List.length_nil]
      at r0 r1 r2 ⊢
    have r0 := r0 (by omega)
    have r1 := r1 (by omega)
    have r2 := r2 (by omega)
    simp only [Nat.add_zero, List.getD_cons_zero, List.getD_cons_succ] at r0 r1 r2
    rw [utf8_to_wchar_len3 _ _ _ (by rw [r0]; omega) (Nat.le_refl _), r0, r1, r2]
    have e : (224 + v / 4096) % 16 * 4096 + (128 + v / 64 % 64) % 64 * 64 +
        (128 + v % 64) % 64 = v := by omega
    rw [e]
  · have h4 : v ≤ 0x1fffff := by omega
    simp only [if_neg h1, if_neg h2, if_neg h3, if_pos h4, List.length_cons, List.length_nil]
      at r0 r1 r2 r3 ⊢
    have r0 := r0 (by omega)
    have r1 := r1 (by omega)
    have r2 := r2 (by omega)
    have r3 := r3 (by omega)
    simp only [Nat.add_zero, List.getD_cons_zero, List.getD_cons_succ] at r0 r1 r2 r3
    rw [utf8_to_wchar_len4 _ _ _ (by rw [r0]; omega) (Nat.le_refl _), r0, r1, r2, r3]
    have e : (240 + v / 262144) % 8 * 262144 + (128 + v / 4096 % 64) % 64 * 4096 +
        (128 + v / 64 % 64) % 64 * 64 + (128 + v % 64) % 64 = v := by omega
    rw [e]

/-- Witness of C8: the scalar U+20AC (three bytes) into a buffer of 3 bytes. -/
theorem utf8_scalar_roundtrip_witness :
    ∃ mem' k, k = (spec_utf8_encode 0x20AC).length ∧ 1 ≤ k ∧ k ≤ 4 ∧
      wchar_to_utf8 (fun _ => 0) 0 ((0x20AC : Nat) : Int) 3 = some (mem', 0 + k) ∧
      (∀ i, i < 0 ∨ 0 + k ≤ i → mem' i = (fun _ => 0) i) ∧
      utf8_to_wchar mem' 0 k = some (((0x20AC : Nat) : Int), 0 + k) :=
  utf8_scalar_roundtrip (fun _ => 0) 0 0x20AC 3 (by decide) (by decide) (by decide)

/-- C9: UTF-16 scalar round trip. For every scalar `v ≤ 0x10FFFF` outside
`0xD800..0xDFFF`, `wchar_to_utf16` with `outsize ≥ 2` succeeds and writes `k`
code units at `output .. output + k - 1` only, `k = 1` if `v ≤ 0xFFFF`, else
`k = 2`; `utf16_to_wchar` run on exactly those `k` units (`insize = k`)
succeeds, yields `v` and advances by `k`. -/
theorem utf16_scalar_roundtrip (mem : Mem) (output v outsize : Nat)
    (hv : v ≤ 0x10FFFF) (hs : ¬ (0xD800 ≤ v ∧ v ≤ 0xDFFF)) (hcap : 2 ≤ outsize) :
    ∃ mem' k, k = (if v ≤ 0xFFFF then 1 else 2) ∧
      wchar_to_utf16 mem output (v : Int) outsize = some (mem', output + k) ∧
      (∀ i, i < output ∨ output + k ≤ i → mem' i = mem i) ∧
      utf16_to_wchar mem' output k = some ((v : Int), output + k) := by
  by_cases h1 : v ≤ 0xFFFF
  · have he : wchar_to_utf16 mem output (v : Int) outsize =
        some (store mem output v, output + 1) := by
      unfold wchar_to_utf16
      have e : ((v : Int) % 65536).toNat = v := by omega
      rw [if_pos (by omega), if_neg (by omega), e]
    refine ⟨_, 1, by rw [if_pos h1], he, (wchar_to_utf16_frame he).2.2, ?_⟩
    have r0 : store mem output v output = v := store_self _ _ _
    rw [utf16_to_wchar_single _ _ _ (by rw [r0]; omega), r0]
  · have he : wchar_to_utf16 mem output (v : Int) outsize =
        some (store (store mem output (0xd800 + (v - 0x10000) / 1024 % 1024)) (output + 1)
          (0xdc00 + (v - 0x10000) % 1024), output + 2) := by
      unfold wchar_to_utf16
      have e : ((v : Int) - 0x10000).toNat = v - 0x10000 := by omega
      rw [if_neg (by omega), if_neg (by omega)]
      simp only [e, surr_hi, surr_lo, shr10]
    refine ⟨_, 2, by rw [if_neg h1], he, (wchar_to_utf16_frame he).2.2, ?_⟩
    generalize hm : store (store mem output (0xd800 + (v - 0x10000) / 1024 % 1024))
      (output + 1) (0xdc00 + (v - 0x10000) % 1024) = m
    have r0 : m output = 0xd800 + (v - 0x10000) / 1024 % 1024 := by
      subst hm; simp [store_apply]
    have r1 : m (output + 1) = 0xdc00 + (v - 0x10000) % 1024 := by
      subst hm; simp [store_apply]
    rw [utf16_to_wchar_pair _ _ _ (by rw [r0]; omega) (Nat.le_refl _) (by rw [r1]; omega),
      r0, r1]
    have e : (0xd800 + (v - 0x10000) / 1024 % 1024) % 1024 * 1024 +
        (0xdc00 + (v - 0x10000) % 1024) % 1024 + 0x10000 = v := by omega
    rw [e]

/-- Witness of C9: the scalar U+1F600 (a surrogate pair) into a buffer of 2 units. -/
theorem utf16_scalar_roundtrip_witness :
    ∃ mem' k, k = (if 0x1F600 ≤ 0xFFFF then 1 else 2) ∧
      wchar_to_utf16 (fun _ => 0) 0 ((0x1F600 : Nat) : Int) 2 = some (mem', 0 + k) ∧
      (∀ i, i < 0 ∨ 0 + k ≤ i → mem' i = (fun _ => 0) i) ∧
      utf16_to_wchar mem' 0 k = some (((0x1F600 : Nat) : Int), 0 + k) :=
  utf16_scalar_roundtrip (fun _ => 0) 0 0x1F600 2 (by decide) (by decide) (by decide)

/-! ## Failure of the UTF-8 decoder -/

theorem utf8_to_wchar_cases (input : Mem) (iptr insize : Nat) (hb : input iptr < 256) :
    (∀ n, spec_utf8_lead_length (input iptr) = some n → n ≤ insize →
      ∃ wc, utf8_to_wchar input iptr insize = some (wc, iptr + n)) ∧
    (∀ n, spec_utf8_lead_length (input iptr) = some n → insize < n →
      utf8_to_wchar input iptr insize = none) ∧
    (spec_utf8_lead_length (input iptr) = none → utf8_to_wchar input iptr insize = none) := by
  unfold utf8_to_wchar spec_utf8_lead_length
  simp only [and_80, and_e0, and_f0, and_f8, and_fc, and_fe]
  refine ⟨?_, ?_, ?_⟩
  · intro n hn hle
    split_ifs at hn <;> simp only [Option.some.injEq, reduceCtorEq] at hn <;> subst hn
    · rw [if_pos (by omega)]; exact ⟨_, rfl⟩
    · rw [if_neg (by omega), if_pos (by omega)]; exact ⟨_, rfl⟩
    · rw [if_neg (by omega), if_neg (by omega), if_pos (by omega)]; exact ⟨_, rfl⟩
    · rw [if_neg (by omega), if_neg (by omega), if_neg (by omega), if_pos (by omega)]
      exact ⟨_, rfl⟩
    · rw [if_neg (by omega), if_neg (by omega), if_neg (by omega), if_neg (by omega),
        if_pos (by omega)]
      exact ⟨_, rfl⟩
    · rw [if_neg (by omega), if_neg (by omega), if_neg (by omega), if_neg (by omega),
        if_neg (by omega), if_pos (by omega)]
      exact ⟨_, rfl⟩
  · intro n hn hlt
    split_ifs at hn <;> simp only [Option.some.injEq, reduceCtorEq] at hn <;> subst hn <;>
      rw [if_neg (by omega), if_neg (by omega), if_neg (by omega), if_neg (by omega),
        if_neg (by omega), if_neg (by omega)]
  · intro hn
    split_ifs at hn
    rw [if_neg (by omega), if_neg (by omega), if_neg (by omega), if_neg (by omega),
      if_neg (by omega), if_neg (by omega)]

/-- C6: `utf8_to_wchar` on a byte `b = input[0]` fails exactly when `b` matches
none of the six lead patterns (that is, `b` is in `0x80..0xBF` or is `0xFE` or
`0xFF`) or fewer than the announced `1..6` bytes remain; in every other case it
succeeds and advances by exactly the announced length. A failure of the decoder
in an iteration of the loop of `utf8_to_utf16` makes it return `-EILSEQ`. -/
theorem utf8_to_wchar_fails_iff (input : Mem) (iptr insize : Nat)
    (hb : input iptr < 256) :
    (utf8_to_wchar input iptr insize = none ↔
      (spec_utf8_lead_length (input iptr) = none ∨
        ∃ n, spec_utf8_lead_length (input iptr) = some n ∧ insize < n)) ∧
    (spec_utf8_lead_length (input iptr) = none ↔
      ((0x80 ≤ input iptr ∧ input iptr ≤ 0xBF) ∨ input iptr = 0xFE ∨ input iptr = 0xFF)) ∧
    (∀ n, spec_utf8_lead_length (input iptr) = some n →
      1 ≤ n ∧ n ≤ 6 ∧
      (n ≤ insize → ∃ wc, utf8_to_wchar input iptr insize = some (wc, iptr + n))) ∧
    (∀ (mem : Mem) (iend oend optr : Nat), iptr < iend → iend - iptr = insize →
      utf8_to_wchar input iptr insize = none →
      (utf8_to_utf16_loop input iend oend iptr optr mem).status = -EILSEQ) := by
  obtain ⟨h1, h2, h3⟩ := utf8_to_wchar_cases input iptr insize hb
  refine ⟨⟨fun hnone => ?_, fun h => ?_⟩, ?_, fun n hn => ⟨?_, ?_, h1 n hn⟩, ?_⟩
  · cases hl : spec_utf8_lead_length (input iptr) with
    | none => exact Or.inl rfl
    | some n =>
      refine Or.inr ⟨n, rfl, ?_⟩
      by_contra hge
      obtain ⟨wc, hwc⟩ := h1 n hl (by omega)
      rw [hwc] at hnone
      exact Option.noConfusion hnone
  · rcases h with h | ⟨n, hn, hlt⟩
    · exact h3 h
    · exact h2 n hn hlt
  · unfold spec_utf8_lead_length
    split_ifs <;> simp <;> omega
  · unfold spec_utf8_lead_length at hn
    split_ifs at hn <;> simp only [Option.some.injEq, reduceCtorEq] at hn <;> omega
  · unfold spec_utf8_lead_length at hn
    split_ifs at hn <;> simp only [Option.some.injEq, reduceCtorEq] at hn <;> omega
  · intro mem iend oend optr hlt hsz hnone
    rw [utf8_loop_step _ _ _ _ _ _ hlt, hsz, hnone]

/-- Witness of C6: the single byte `0xF0` announces four bytes but only one
remains, so the decoder fails and `utf8_to_utf16` with `insize = 1` and
`outsize = 1` returns `-EILSEQ`. -/
theorem utf8_to_wchar_fails_iff_witness :
    ofList [0xF0] 0 < 256 ∧
    spec_utf8_lead_length (ofList [0xF0] 0) = some 4 ∧
    utf8_to_wchar (ofList [0xF0]) 0 1 = none ∧
    (utf8_to_utf16 (fun _ => 0) (ofList [0xF0]) 1 1).status = -EILSEQ := by
  have h := utf8_to_wchar_fails_iff (ofList [0xF0]) 0 1 (by decide)
  have hn : utf8_to_wchar (ofList [0xF0]) 0 1 = none :=
    h.1.2 (Or.inr ⟨4, by decide, by decide⟩)
  exact ⟨by decide, by decide, hn, h.2.2.2 (fun _ => 0) 1 1 0 (by decide) (by decide) hn⟩

/-! ## `utf16_to_utf8` stops at the first zero unit -/

theorem utf16_to_wchar_advances {input : Mem} {iptr insize : Nat} {wc : Int} {p : Nat}
    (h : utf16_to_wchar input iptr insize = some (wc, p)) :
    iptr < p ∧ (0 < insize → p ≤ iptr + insize) := by
  unfold utf16_to_wchar at h
  split at h
  · split at h
    · simp at h
    · simp at h; omega
  · simp at h; omega

theorem utf16_to_wchar_nonzero {input : Mem} {iptr insize : Nat} {wc : Int} {p : Nat}
    (h : utf16_to_wchar input iptr insize = some (wc, p)) (hu : input iptr ≠ 0) :
    wc ≠ 0 := by
  unfold utf16_to_wchar at h
  split at h
  · split at h
    · simp at h
    · simp only [Option.some.injEq, Prod.mk.injEq] at h
      omega
  · simp only [Option.some.injEq, Prod.mk.injEq] at h
    omega

theorem utf16_to_wchar_agree (input input' : Mem) (iptr k n : Nat)
    (hlt : iptr < k) (hkn : k < n) (hz : input k = 0)
    (hag : ∀ i ≤ k, input' i = input i) :
    utf16_to_wchar input' iptr (n - iptr) = utf16_to_wchar input iptr (k - iptr) := by
  unfold utf16_to_wchar
  rw [hag iptr (by omega), hag (iptr + 1) (by omega)]
  by_cases hh : input iptr &&& 0xfc00 = 0xd800
  · rw [if_pos hh, if_pos hh]
    by_cases hl : input (iptr + 1) &&& 0xfc00 ≠ 0xdc00
    · rw [if_pos (Or.inr hl), if_pos (Or.inr hl)]
    · have h1 : iptr + 1 ≠ k := by
        intro e
        rw [e, hz] at hl
        exact hl (by decide)
      rw [if_neg (by omega), if_neg (by omega)]
  · rw [if_neg hh, if_neg hh]

theorem utf16_loop_at_zero (input : Mem) (iend oend k optr : Nat) (mem : Mem)
    (hk : k < iend) (hz : input k = 0) :
    utf16_to_utf8_loop input iend oend k optr mem =
      if optr ≥ oend then ⟨-ENAMETOOLONG, mem, optr⟩
      else ⟨0, store mem optr 0, optr + 1⟩ := by
  rw [utf16_loop_step _ _ _ _ _ _ hk, utf16_to_wchar_single _ _ _ (by rw [hz]; decide), hz]
  unfold wchar_to_utf8
  by_cases ho : optr ≥ oend
  · rw [if_pos ho]
    simp only [Nat.cast_zero]
    rw [if_pos (by decide), if_pos (by omega)]
  · rw [if_neg ho]
    simp only [Nat.cast_zero]
    rw [if_pos (by decide), if_neg (by omega)]
    simp

theorem utf16_loop_zero_stop (input input' : Mem) (iend oend k : Nat)
    (hk : k < iend) (hz : input k = 0) (hnz : ∀ i < k, input i ≠ 0)
    (hag : ∀ i ≤ k, input' i = input i) (iptr optr : Nat) (mem : Mem) :
    iptr ≤ k →
    utf16_to_utf8_loop input' iend oend iptr optr mem =
      utf16_to_utf8_loop input k oend iptr optr mem := by
  refine utf16_to_utf8_loop.induct input k oend
    (fun iptr optr mem => iptr ≤ k →
      utf16_to_utf8_loop input' iend oend iptr optr mem =
        utf16_to_utf8_loop input k oend iptr optr mem)
    ?_ ?_ ?_ ?_ ?_ ?_ iptr optr mem
  · intro iptr optr mem hlt hdec _
    rw [utf16_loop_step _ _ _ _ _ _ hlt, utf16_loop_step _ _ _ _ _ _ (by omega),
      utf16_to_wchar_agree input input' iptr k iend hlt hk hz hag, hdec]
  · intro iptr optr mem hlt wc iptr' hdec henc _
    rw [utf16_loop_step _ _ _ _ _ _ hlt, utf16_loop_step _ _ _ _ _ _ (by omega),
      utf16_to_wchar_agree input input' iptr k iend hlt hk hz hag, hdec]
    simp only [henc]
  · intro iptr optr mem hlt iptr' mem' optr' hdec _ _
    exact absurd rfl (utf16_to_wchar_nonzero hdec (hnz iptr hlt))
  · intro iptr optr mem hlt wc iptr' hdec mem' optr' henc hwc ih _
    rw [utf16_loop_step _ _ _ _ _ _ hlt, utf16_loop_step _ _ _ _ _ _ (by omega),
      utf16_to_wchar_agree input input' iptr k iend hlt hk hz hag, hdec]
    simp only [henc, if_neg hwc]
    have := (utf16_to_wchar_advances hdec).2 (by omega)
    exact ih (by omega)
  · intro iptr optr mem hlt hge hle
    have e : iptr = k := by omega
    subst e
    rw [utf16_loop_done _ _ _ _ _ _ hlt, if_pos hge,
      utf16_loop_at_zero input' iend oend iptr optr mem hk
        (by rw [hag iptr (Nat.le_refl _), hz]), if_pos hge]
  · intro iptr optr mem hlt hge hle
    have e : iptr = k := by omega
    subst e
    rw [utf16_loop_done _ _ _ _ _ _ hlt, if_neg hge,
      utf16_loop_at_zero input' iend oend iptr optr mem hk
        (by rw [hag iptr (Nat.le_refl _), hz]), if_neg hge]

/-- C2: when the first zero unit of the input is at index `k < insize`,
`utf16_to_utf8` stops there. Its result (status, buffer, bytes written) is that
of the call on the first `k` units alone (`insize = k`) with the same
`outsize`; nothing after index `k` is examined, since any input that agrees up
to index `k` gives the same result whatever follows and however long it is; and
on success the last byte written is the `0x00` that encodes the zero scalar. -/
theorem stops_at_first_zero (mem input input' : Mem) (outsize insize insize' k : Nat)
    (hk : k < insize) (hz : input k = 0) (hnz : ∀ i < k, input i ≠ 0)
    (hk' : k < insize') (hag : ∀ i ≤ k, input' i = input i) :
    utf16_to_utf8 mem input outsize insize = utf16_to_utf8 mem input outsize k ∧
    utf16_to_utf8 mem input' outsize insize' = utf16_to_utf8 mem input outsize k ∧
    ((utf16_to_utf8 mem input outsize insize).status = 0 →
      1 ≤ (utf16_to_utf8 mem input outsize insize).written ∧
      (utf16_to_utf8 mem input outsize insize).mem
        ((utf16_to_utf8 mem input outsize insize).written - 1) = 0) := by
  refine ⟨?_, ?_, fun h0 => ?_⟩
  · exact utf16_loop_zero_stop input input insize outsize k hk hz hnz (fun _ _ => rfl)
      0 0 mem (Nat.zero_le _)
  · exact utf16_loop_zero_stop input input' insize' outsize k hk' hz hnz hag
      0 0 mem (Nat.zero_le _)
  · obtain ⟨_, _, _, a4⟩ := utf16_loop_frame input insize outsize 0 0 mem (Nat.zero_le _)
    exact a4 h0

/-- Witness of C2: the input `{0xD800, 0xDC00, 0x0000}` with `insize = 3`, compared
with its first two units and with a longer input that agrees on the first
three units. With `outsize = 5` the call returns 0 and writes
`{0xF0, 0x90, 0x80, 0x80, 0x00}`; with `outsize = 4` it returns `-ENAMETOOLONG`. -/
theorem stops_at_first_zero_witness :
    (utf16_to_utf8 (fun _ => 0xFF) (ofList [0xD800, 0xDC00, 0]) 5 3 =
        utf16_to_utf8 (fun _ => 0xFF) (ofList [0xD800, 0xDC00, 0]) 5 2 ∧
      utf16_to_utf8 (fun _ => 0xFF) (ofList [0xD800, 0xDC00, 0, 0xD800]) 5 4 =
        utf16_to_utf8 (fun _ => 0xFF) (ofList [0xD800, 0xDC00, 0]) 5 2 ∧
      ((utf16_to_utf8 (fun _ => 0xFF) (ofList [0xD800, 0xDC00, 0]) 5 3).status = 0 →
        1 ≤ (utf16_to_utf8 (fun _ => 0xFF) (ofList [0xD800, 0xDC00, 0]) 5 3).written ∧
        (utf16_to_utf8 (fun _ => 0xFF) (ofList [0xD800, 0xDC00, 0]) 5 3).mem
          ((utf16_to_utf8 (fun _ => 0xFF) (ofList [0xD800, 0xDC00, 0]) 5 3).written - 1) = 0)) ∧
    (utf16_to_utf8 (fun _ => 0xFF) (ofList [0xD800, 0xDC00, 0]) 5 3).status = 0 ∧
    readBuf (utf16_to_utf8 (fun _ => 0xFF) (ofList [0xD800, 0xDC00, 0]) 5 3).mem 0 5 =
      [0xF0, 0x90, 0x80, 0x80, 0x00] ∧
    (utf16_to_utf8 (fun _ => 0xFF) (ofList [0xD800, 0xDC00, 0]) 4 3).status =
      -ENAMETOOLONG := by
  refine ⟨stops_at_first_zero (fun _ => 0xFF) (ofList [0xD800, 0xDC00, 0])
    (ofList [0xD800, 0xDC00, 0, 0xD800]) 5 3 4 2 (by decide) (by decide) (by decide)
    (by decide) (by decide), ?_, ?_, ?_⟩
  · simp +decide [utf16_to_utf8, utf16_loop_step, utf16_loop_done, utf16_to_wchar,
      wchar_to_utf8, ofList, store]
  · simp +decide [utf16_to_utf8, utf16_loop_step, utf16_loop_done, utf16_to_wchar,
      wchar_to_utf8, ofList, store, readBuf, List.range']
  · simp +decide [utf16_to_utf8, utf16_loop_step, utf16_loop_done, utf16_to_wchar,
      wchar_to_utf8, ofList, store]

/-! ## `utf16_to_utf8` on well-formed input without a zero unit -/

theorem readBuf_zero (m : Mem) (s : Nat) : readBuf m s 0 = [] := rfl

theorem readBuf_succ (m : Mem) (s n : Nat) :
    readBuf m s (n + 1) = m s :: readBuf m (s + 1) n := by
  simp [readBuf, List.range'_succ]

theorem spec_utf16_scalars_cons (u : Nat) (rest : List Nat) (h : ¬ isHighSurrogate u) :
    spec_utf16_scalars (u :: rest) = u :: spec_utf16_scalars rest := by
  cases rest <;> simp [spec_utf16_scalars, h]

theorem spec_utf8_encode_length (w : Nat) (hw : w ≤ 0x7fffffff) :
    (spec_utf8_encode w).length =
      if w ≤ 0x7f then 1 else if w ≤ 0x7ff then 2 else if w ≤ 0xffff then 3
      else if w ≤ 0x1fffff then 4 else if w ≤ 0x3ffffff then 5 else 6 := by
  rw [spec_utf8_encode_arith w hw]
  split_ifs <;> rfl

theorem utf16_loop_step_scalar (input : Mem) (iend oend iptr optr : Nat) (mem : Mem)
    (W iptr' : Nat) (hlt : iptr < iend)
    (hdec : utf16_to_wchar input iptr (iend - iptr) = some ((W : Int), iptr'))
    (hW0 : W ≠ 0) (hW : W ≤ 0x7fffffff) :
    utf16_to_utf8_loop input iend oend iptr optr mem =
      if oend - optr < (spec_utf8_encode W).length then ⟨-ENAMETOOLONG, mem, optr⟩
      else utf16_to_utf8_loop input iend oend iptr' (optr + (spec_utf8_encode W).length)
        (storeList mem optr (spec_utf8_encode W)) := by
  rw [utf16_loop_step _ _ _ _ _ _ hlt, hdec]
  simp only [wchar_to_utf8_eq_spec mem optr W (oend - optr) hW]
  by_cases hc : oend - optr < (spec_utf8_encode W).length
  · simp only [if_pos hc]
  · have hne : ¬ ((W : Int) = 0) := by omega
    simp only [if_neg hc, if_neg hne]

theorem wellformed_combine (r r' : Result) (mem : Mem) (optr oend : Nat) (e bs' : List Nat)
    (hr : r = if oend - optr < e.length then ⟨-ENAMETOOLONG, mem, optr⟩ else r')
    (h1 : optr + e.length + bs'.length < oend →
      r' = ⟨0, storeList (storeList mem optr e) (optr + e.length) (bs' ++ [0]),
        optr + e.length + bs'.length + 1⟩)
    (h2 : oend ≤ optr + e.length + bs'.length → r'.status = -ENAMETOOLONG) :
    (optr + (e ++ bs').length < oend →
      r = ⟨0, storeList mem optr ((e ++ bs') ++ [0]), optr + (e ++ bs').length + 1⟩) ∧
    (oend ≤ optr + (e ++ bs').length → r.status = -ENAMETOOLONG) := by
  rw [List.length_append]
  constructor
  · intro hfit
    have e1 : optr + e.length + bs'.length + 1 = optr + (e.length + bs'.length) + 1 := by
      omega
    rw [hr, if_neg (by omega), h1 (by omega), List.append_assoc,
      storeList_append e (bs' ++ [0]) mem optr, e1]
  · intro hno
    rw [hr]
    by_cases hc : oend - optr < e.length
    · rw [if_pos hc]
    · rw [if_neg hc]
      exact h2 (by omega)

theorem utf16_loop_wellformed (input : Mem) (iend oend : Nat)
    (hr : ∀ i < iend, input i < 65536) (hnz : ∀ i < iend, input i ≠ 0)
    (hp : ∀ i < iend, isHighSurrogate (input i) →
      i + 1 < iend ∧ isLowSurrogate (input (i + 1))) :
    ∀ n iptr optr mem, iend - iptr = n →
      (optr + (spec_utf8_string (spec_utf16_scalars
          (readBuf input iptr (iend - iptr)))).length < oend →
        utf16_to_utf8_loop input iend oend iptr optr mem =
          ⟨0, storeList mem optr (spec_utf8_string (spec_utf16_scalars
            (readBuf input iptr (iend - iptr))) ++ [0]),
            optr + (spec_utf8_string (spec_utf16_scalars
              (readBuf input iptr (iend - iptr)))).length + 1⟩) ∧
      (oend ≤ optr + (spec_utf8_string (spec_utf16_scalars
          (readBuf input iptr (iend - iptr)))).length →
        (utf16_to_utf8_loop input iend oend iptr optr mem).status = -ENAMETOOLONG) := by
  intro n
  induction n using Nat.strong_induction_on with
  | _ n ih =>
    intro iptr optr mem hn
    by_cases hlt : iptr < iend
    · have hs : iend - iptr = (iend - (iptr + 1)) + 1 := by omega
      by_cases hh : input iptr / 1024 % 64 = 54
      · have hhigh : isHighSurrogate (input iptr) :=
          (isHighSurrogate_iff _ (hr _ hlt)).2 hh
        obtain ⟨h1, hlow⟩ := hp iptr hlt hhigh
        have hl := (isLowSurrogate_iff _ (hr _ h1)).1 hlow
        have hs2 : iend - (iptr + 1) = (iend - (iptr + 2)) + 1 := by omega
        have hdec := utf16_to_wchar_pair input iptr (iend - iptr) hh (by omega) hl
        have hstep := utf16_loop_step_scalar input iend oend iptr optr mem _ _ hlt hdec
          (by omega) (by omega)
        obtain ⟨ih1, ih2⟩ := ih (iend - (iptr + 2)) (by omega) (iptr + 2)
          (optr + (spec_utf8_encode
            (input iptr % 1024 * 1024 + input (iptr + 1) % 1024 + 0x10000)).length)
          (storeList mem optr (spec_utf8_encode
            (input iptr % 1024 * 1024 + input (iptr + 1) % 1024 + 0x10000))) rfl
        have hsc : spec_utf8_string (spec_utf16_scalars (readBuf input iptr (iend - iptr))) =
            spec_utf8_encode (input iptr % 1024 * 1024 + input (iptr + 1) % 1024 + 0x10000) ++
              spec_utf8_string (spec_utf16_scalars
                (readBuf input (iptr + 2) (iend - (iptr + 2)))) := by
          rw [hs, readBuf_succ, hs2, readBuf_succ]
          simp only [spec_utf16_scalars, if_pos hhigh, dec_pair, spec_utf8_string]
        rw [hsc]
        exact wellformed_combine _ _ mem optr oend _ _ hstep ih1 ih2
      · have hnh : ¬ isHighSurrogate (input iptr) := fun h =>
          hh ((isHighSurrogate_iff _ (hr _ hlt)).1 h)
        have hdec := utf16_to_wchar_single input iptr (iend - iptr) hh
        have hstep := utf16_loop_step_scalar input iend oend iptr optr mem _ _ hlt hdec
          (hnz _ hlt) (by have := hr _ hlt; omega)
        obtain ⟨ih1, ih2⟩ := ih (iend - (iptr + 1)) (by omega) (iptr + 1)
          (optr + (spec_utf8_encode (input iptr)).length)
          (storeList mem optr (spec_utf8_encode (input iptr))) rfl
        have hsc : spec_utf8_string (spec_utf16_scalars (readBuf input iptr (iend - iptr))) =
            spec_utf8_encode (input iptr) ++
              spec_utf8_string (spec_utf16_scalars
                (readBuf input (iptr + 1) (iend - (iptr + 1)))) := by
          rw [hs, readBuf_succ, spec_utf16_scalars_cons _ _ hnh]
          simp only [spec_utf8_string]
        rw [hsc]
        exact wellformed_combine _ _ mem optr oend _ _ hstep ih1 ih2
    · have hs : iend - iptr = 0 := by omega
      rw [hs, readBuf_zero]
      simp only [spec_utf16_scalars, spec_utf8_string, List.length_nil, Nat.add_zero,
        List.nil_append, storeList]
      rw [utf16_loop_done _ _ _ _ _ _ hlt]
      constructor
      · intro h
        rw [if_neg (by omega)]
      · intro h
        rw [if_pos (by omega)]

/-- C1: on a UTF-16 input of `insize` units with no zero unit in which every
high surrogate is immediately followed, within `insize`, by a low surrogate,
let `L` be the total UTF-8 length of the decoded scalars. `utf16_to_utf8`
returns 0 if and only if `outsize ≥ L + 1`; it then has written exactly `L + 1`
bytes, the concatenated UTF-8 encodings of the scalars followed by one `0x00`,
and nothing beyond them; for every `outsize ≤ L` it returns `-ENAMETOOLONG`. -/
theorem utf16_to_utf8_wellformed (mem input : Mem) (outsize insize : Nat)
    (hr : ∀ i < insize, input i < 65536) (hnz : ∀ i < insize, input i ≠ 0)
    (hp : ∀ i < insize, isHighSurrogate (input i) →
      i + 1 < insize ∧ isLowSurrogate (input (i + 1))) :
    ((utf16_to_utf8 mem input outsize insize).status = 0 ↔
      (spec_utf16_to_utf8 (readBuf input 0 insize)).length + 1 ≤ outsize) ∧
    ((spec_utf16_to_utf8 (readBuf input 0 insize)).length + 1 ≤ outsize →
      (utf16_to_utf8 mem input outsize insize).written =
        (spec_utf16_to_utf8 (readBuf input 0 insize)).length + 1 ∧
      readBuf (utf16_to_utf8 mem input outsize insize).mem 0
          ((spec_utf16_to_utf8 (readBuf input 0 insize)).length + 1) =
        spec_utf16_to_utf8 (readBuf input 0 insize) ++ [0] ∧
      ∀ i, (spec_utf16_to_utf8 (readBuf input 0 insize)).length + 1 ≤ i →
        (utf16_to_utf8 mem input outsize insize).mem i = mem i) ∧
    (outsize ≤ (spec_utf16_to_utf8 (readBuf input 0 insize)).length →
      (utf16_to_utf8 mem input outsize insize).status = -ENAMETOOLONG) := by
  obtain ⟨h1, h2⟩ := utf16_loop_wellformed input insize outsize hr hnz hp insize 0 0 mem rfl
  simp only [Nat.sub_zero, Nat.zero_add] at h1 h2
  unfold spec_utf16_to_utf8 utf16_to_utf8
  refine ⟨⟨fun h0 => ?_, fun hfit => ?_⟩, fun hfit => ?_, h2⟩
  · by_contra hc
    rw [h2 (by omega)] at h0
    exact absurd h0 (by decide)
  · rw [h1 (by omega)]
  · rw [h1 (by omega)]
    refine ⟨rfl, ?_, fun i hi => ?_⟩
    · have hlen : (spec_utf8_string (spec_utf16_scalars (readBuf input 0 insize))).length + 1 =
          (spec_utf8_string (spec_utf16_scalars (readBuf input 0 insize)) ++ [0]).length := by
        simp
      rw [hlen]
      exact readBuf_storeList _ mem 0
    · exact storeList_frame _ mem 0 i (Or.inr (by simp; omega))

/-- Witness of C1: the input `{0x0041}` satisfies the hypotheses, its UTF-8
bytes are `{0x41}`; with `outsize = 2` the call returns 0 and writes
`{0x41, 0x00}`; with `outsize = 1` it returns `-ENAMETOOLONG`. -/
theorem utf16_to_utf8_wellformed_witness :
    (∀ i < 1, ofList [0x41] i < 65536) ∧ (∀ i < 1, ofList [0x41] i ≠ 0) ∧
    (∀ i < 1, isHighSurrogate (ofList [0x41] i) →
      i + 1 < 1 ∧ isLowSurrogate (ofList [0x41] (i + 1))) ∧
    spec_utf16_to_utf8 (readBuf (ofList [0x41]) 0 1) = [0x41] ∧
    (utf16_to_utf8 (fun _ => 0xFF) (ofList [0x41]) 2 1).status = 0 ∧
    (utf16_to_utf8 (fun _ => 0xFF) (ofList [0x41]) 2 1).written = 2 ∧
    readBuf (utf16_to_utf8 (fun _ => 0xFF) (ofList [0x41]) 2 1).mem 0 2 = [0x41, 0x00] ∧
    (utf16_to_utf8 (fun _ => 0xFF) (ofList [0x41]) 1 1).status = -ENAMETOOLONG := by
  have hr : ∀ i < 1, ofList [0x41] i < 65536 := by decide
  have hnz : ∀ i < 1, ofList [0x41] i ≠ 0 := by decide
  have hp : ∀ i < 1, isHighSurrogate (ofList [0x41] i) →
      i + 1 < 1 ∧ isLowSurrogate (ofList [0x41] (i + 1)) := by decide
  have hL : spec_utf16_to_utf8 (readBuf (ofList [0x41]) 0 1) = [0x41] := by decide
  have h2 := utf16_to_utf8_wellformed (fun _ => 0xFF) (ofList [0x41]) 2 1 hr hnz hp
  have h1 := utf16_to_utf8_wellformed (fun _ => 0xFF) (ofList [0x41]) 1 1 hr hnz hp
  rw [hL] at h1 h2
  exact ⟨hr, hnz, hp, hL, h2.1.2 (by decide), (h2.2.1 (by decide)).1,
    (h2.2.1 (by decide)).2.1, h1.2.2 (by decide)⟩

/-! ## `-EILSEQ` from `utf16_to_utf8` -/

theorem utf16_loop_eilseq (input : Mem) (iend oend : Nat)
    (hr : ∀ i < iend, input i < 65536) :
    ∀ n iptr optr mem, iend - iptr = n → optr + 3 * (iend - iptr) + 1 ≤ oend →
      ((utf16_to_utf8_loop input iend oend iptr optr mem).status = -EILSEQ ↔
        ∃ i, iptr ≤ i ∧ i < iend ∧ (∀ j, iptr ≤ j → j ≤ i → input j ≠ 0) ∧
          isHighSurrogate (input i) ∧
          (iend ≤ i + 1 ∨ ¬ isLowSurrogate (input (i + 1)))) := by
  intro n
  induction n using Nat.strong_induction_on with
  | _ n ih =>
    intro iptr optr mem hn hcap
    by_cases hlt : iptr < iend
    · by_cases hz : input iptr = 0
      · rw [utf16_loop_at_zero input iend oend iptr optr mem hlt hz, if_neg (by omega)]
        constructor
        · intro h
          have h' : (0 : Int) = -EILSEQ := h
          exact absurd h' (by decide)
        · rintro ⟨i, hi, _, hnz, _⟩
          exact absurd hz (hnz iptr (Nat.le_refl _) hi)
      by_cases hh : input iptr / 1024 % 64 = 54
      · have hhigh : isHighSurrogate (input iptr) :=
          (isHighSurrogate_iff _ (hr _ hlt)).2 hh
        by_cases hb : iend - iptr < 2 ∨ input (iptr + 1) / 1024 % 64 ≠ 55
        · rw [utf16_loop_step _ _ _ _ _ _ hlt, utf16_to_wchar_bad _ _ _ hh hb]
          refine ⟨fun _ => ⟨iptr, Nat.le_refl _, hlt, ?_, hhigh, ?_⟩, fun _ => rfl⟩
          · intro j h1 h2
            have e : j = iptr := by omega
            rw [e]; exact hz
          · rcases hb with hb | hb
            · exact Or.inl (by omega)
            · by_cases h1 : iptr + 1 < iend
              · exact Or.inr (fun hl => hb ((isLowSurrogate_iff _ (hr _ h1)).1 hl))
              · exact Or.inl (by omega)
        · have h2 : iptr + 1 < iend := by omega
          have hl : input (iptr + 1) / 1024 % 64 = 55 := by omega
          have hlow : isLowSurrogate (input (iptr + 1)) :=
            (isLowSurrogate_iff _ (hr _ h2)).2 hl
          have hdec := utf16_to_wchar_pair input iptr (iend - iptr) hh (by omega) hl
          have hlen := spec_utf8_encode_length
            (input iptr % 1024 * 1024 + input (iptr + 1) % 1024 + 0x10000) (by omega)
          rw [if_neg (by omega), if_neg (by omega), if_neg (by omega),
            if_pos (by omega)] at hlen
          rw [utf16_loop_step_scalar input iend oend iptr optr mem _ _ hlt hdec
            (by omega) (by omega), hlen, if_neg (by omega),
            ih (iend - (iptr + 2)) (by omega) (iptr + 2) _ _ rfl (by omega)]
          constructor
          · rintro ⟨i, hi1, hi2, hnz, hhi, hbad⟩
            refine ⟨i, by omega, hi2, fun j hj1 hj2 => ?_, hhi, hbad⟩
            by_cases hj : iptr + 2 ≤ j
            · exact hnz j hj hj2
            · have hj' : j = iptr ∨ j = iptr + 1 := by omega
              rcases hj' with e | e
              · rw [e]; exact hz
              · rw [e]; unfold isLowSurrogate at hlow; omega
          · rintro ⟨i, hi1, hi2, hnz, hhi, hbad⟩
            have hne0 : i ≠ iptr := by
              intro e
              rw [e] at hbad
              rcases hbad with hbad | hbad
              · omega
              · exact hbad hlow
            have hne1 : i ≠ iptr + 1 := by
              intro e
              rw [e] at hhi
              unfold isHighSurrogate at hhi
              unfold isLowSurrogate at hlow
              omega
            exact ⟨i, by omega, hi2, fun j hj1 hj2 => hnz j (by omega) hj2, hhi, hbad⟩
      · have hnh : ¬ isHighSurrogate (input iptr) := fun h =>
          hh ((isHighSurrogate_iff _ (hr _ hlt)).1 h)
        have hdec := utf16_to_wchar_single input iptr (iend - iptr) hh
        have hu := hr _ hlt
        have hlen := spec_utf8_encode_length (input iptr) (by omega)
        have hlen3 : (spec_utf8_encode (input iptr)).length ≤ 3 := by
          rw [hlen]; split_ifs <;> omega
        rw [utf16_loop_step_scalar input iend oend iptr optr mem _ _ hlt hdec hz (by omega),
          if_neg (by omega),
          ih (iend - (iptr + 1)) (by omega) (iptr + 1) _ _ rfl (by omega)]
        constructor
        · rintro ⟨i, hi1, hi2, hnz, hhi, hbad⟩
          refine ⟨i, by omega, hi2, fun j hj1 hj2 => ?_, hhi, hbad⟩
          by_cases hj : iptr + 1 ≤ j
          · exact hnz j hj hj2
          · have e : j = iptr := by omega
            rw [e]; exact hz
        · rintro ⟨i, hi1, hi2, hnz, hhi, hbad⟩
          have hne0 : i ≠ iptr := by
            intro e
            rw [e] at hhi
            exact hnh hhi
          exact ⟨i, by omega, hi2, fun j hj1 hj2 => hnz j (by omega) hj2, hhi, hbad⟩
    · rw [utf16_loop_done _ _ _ _ _ _ hlt, if_neg (by omega)]
      constructor
      · intro h
        have h' : (0 : Int) = -EILSEQ := h
        exact absurd h' (by decide)
      · rintro ⟨i, hi1, hi2, _⟩
        omega

/-- C5: with `outsize ≥ 3 * insize + 1`, `utf16_to_utf8` returns `-EILSEQ` if
and only if some index `i < insize` before the first zero unit (no unit at an
index `≤ i` is zero) holds a high surrogate that is the last unit of the input
or is not followed by a low surrogate. -/
theorem eilseq_iff_bad_surrogate (mem input : Mem) (outsize insize : Nat)
    (hr : ∀ i < insize, input i < 65536) (hcap : 3 * insize + 1 ≤ outsize) :
    (utf16_to_utf8 mem input outsize insize).status = -EILSEQ ↔
      ∃ i, i < insize ∧ (∀ j, j ≤ i → input j ≠ 0) ∧ isHighSurrogate (input i) ∧
        (insize ≤ i + 1 ∨ ¬ isLowSurrogate (input (i + 1))) := by
  unfold utf16_to_utf8
  rw [utf16_loop_eilseq input insize outsize hr insize 0 0 mem rfl (by omega)]
  constructor
  · rintro ⟨i, _, hi, hnz, hhi, hbad⟩
    exact ⟨i, hi, fun j hj => hnz j (Nat.zero_le _) hj, hhi, hbad⟩
  · rintro ⟨i, hi, hnz, hhi, hbad⟩
    exact ⟨i, Nat.zero_le _, hi, fun j _ hj => hnz j hj, hhi, hbad⟩

/-- Witness of C5: the lone high surrogate `{0xD800}` with `insize = 1` returns
`-EILSEQ`. -/
theorem eilseq_iff_bad_surrogate_witness :
    (∀ i < 1, ofList [0xD800] i < 65536) ∧ 3 * 1 + 1 ≤ 4 ∧
    (utf16_to_utf8 (fun _ => 0xFF) (ofList [0xD800]) 4 1).status = -EILSEQ :=
  ⟨by decide, by decide,
    (eilseq_iff_bad_surrogate (fun _ => 0xFF) (ofList [0xD800]) 4 1 (by decide) (by decide)).2
      ⟨0, by decide, by decide, by decide, Or.inl (by decide)⟩⟩

/-! ## Output exhaustion of `utf8_to_utf16` on an input holding a NUL -/

theorem utf16_length_loop_found (str : Mem) (n : Nat) (hz : str n = 0) :
    ∀ d i fuel, i + d = n → (∀ j, i ≤ j → j < n → str j ≠ 0) → d < fuel →
      utf16_length_loop str fuel i = some n := by
  intro d
  induction d with
  | zero =>
    intro i fuel hi _ hf
    obtain ⟨f, rfl⟩ : ∃ f, fuel = f + 1 := ⟨fuel - 1, by omega⟩
    have e : i = n := by omega
    subst e
    simp [utf16_length_loop, hz]
  | succ d ih =>
    intro i fuel hi hnz hf
    obtain ⟨f, rfl⟩ : ∃ f, fuel = f + 1 := ⟨fuel - 1, by omega⟩
    have h0 : str i ≠ 0 := hnz i (Nat.le_refl _) (by omega)
    simp only [utf16_length_loop, if_pos h0]
    exact ih (i + 1) f (by omega) (fun j h1 h2 => hnz j (by omega) h2) (by omega)

theorem first_zero_exists (str : Mem) (k : Nat) (hz : str k = 0) :
    ∃ n, n ≤ k ∧ str n = 0 ∧ ∀ j, j < n → str j ≠ 0 := by
  induction k using Nat.strong_induction_on with
  | _ k ih =>
    by_cases h : ∀ j, j < k → str j ≠ 0
    · exact ⟨k, Nat.le_refl _, hz, h⟩
    · push_neg at h
      obtain ⟨j, hj, hj0⟩ := h
      obtain ⟨n, hn, h1, h2⟩ := ih j hj hj0
      exact ⟨n, by omega, h1, h2⟩

/-- C11: on a UTF-16 sequence that holds a zero unit (at some index `k`),
`utf16_length` terminates and returns the index `n` of the first zero unit:
unit `n` is zero, every unit before it is non-zero, the scan returns `n` as
soon as it is allowed `n + 1` tests of its loop condition, and it returns
nothing else however many it is allowed. -/
theorem utf16_length_first_zero (str : Mem) (k : Nat) (hz : str k = 0) :
    ∃ n, n ≤ k ∧ str n = 0 ∧ (∀ j, j < n → str j ≠ 0) ∧
      (∀ fuel, n < fuel → utf16_length fuel str = some n) ∧
      (∀ fuel m, utf16_length fuel str = some m → m = n) := by
  obtain ⟨n, hn, h0, hnz⟩ := first_zero_exists str k hz
  have hfound : ∀ fuel, n < fuel → utf16_length fuel str = some n := fun fuel hf =>
    utf16_length_loop_found str n h0 n 0 fuel (Nat.zero_add _)
      (fun j _ hj => hnz j hj) hf
  refine ⟨n, hn, h0, hnz, hfound, fun fuel m hm => ?_⟩
  by_cases hf : n < fuel
  · rw [hfound fuel hf] at hm
    exact (Option.some.inj hm).symm
  · exfalso
    have hnone : ∀ f i, i + f ≤ n → utf16_length_loop str f i = none := by
      intro f
      induction f with
      | zero => intro i _; rfl
      | succ f ih =>
        intro i hi
        have h1 : str i ≠ 0 := hnz i (by omega)
        simp only [utf16_length_loop, if_pos h1]
        exact ih (i + 1) (by omega)
    have := hnone fuel 0 (by omega)
    unfold utf16_length at hm
    rw [this] at hm
    exact Option.noConfusion hm

/-- Witness of C11: the sequence `{0x41, 0x42, 0x0000, 0x43, 0x0000}` has length 2. -/
theorem utf16_length_first_zero_witness :
    ofList [0x41, 0x42, 0, 0x43, 0] 4 = 0 ∧
    utf16_length 3 (ofList [0x41, 0x42, 0, 0x43, 0]) = some 2 ∧
    ∃ n, n ≤ 4 ∧ ofList [0x41, 0x42, 0, 0x43, 0] n = 0 ∧
      (∀ j, j < n → ofList [0x41, 0x42, 0, 0x43, 0] j ≠ 0) ∧
      (∀ fuel, n < fuel → utf16_length fuel (ofList [0x41, 0x42, 0, 0x43, 0]) = some n) ∧
      (∀ fuel m, utf16_length fuel (ofList [0x41, 0x42, 0, 0x43, 0]) = some m → m = n) :=
  ⟨by decide, by decide,
    utf16_length_first_zero (ofList [0x41, 0x42, 0, 0x43, 0]) 4 (by decide)⟩

/-! ## The leaf functions against the specification -/

/-- C12: for a high surrogate `h = input[0]` and a low surrogate
`l = input[1]`, `utf16_to_wchar` with `insize ≥ 2` succeeds, advances by
exactly 2 units and yields `0x10000 + (((h & 0x3FF) << 10) | (l & 0x3FF))`,
a value in `0x10000..0x10FFFF`. -/
theorem surrogate_pair_decoding (input : Mem) (iptr insize : Nat)
    (hh : isHighSurrogate (input iptr)) (hl : isLowSurrogate (input (iptr + 1)))
    (hn : 2 ≤ insize) :
    utf16_to_wchar input iptr insize =
      some (((0x10000 + (((input iptr &&& 0x3FF) <<< 10) |||
        (input (iptr + 1) &&& 0x3FF)) : Nat) : Int), iptr + 2) ∧
    0x10000 ≤ 0x10000 + (((input iptr &&& 0x3FF) <<< 10) ||| (input (iptr + 1) &&& 0x3FF)) ∧
    0x10000 + (((input iptr &&& 0x3FF) <<< 10) ||| (input (iptr + 1) &&& 0x3FF)) ≤
      0x10FFFF := by
  unfold isHighSurrogate at hh
  unfold isLowSurrogate at hl
  rw [utf16_to_wchar_pair input iptr insize (by omega) hn (by omega), dec_pair]
  refine ⟨?_, by omega, by omega⟩
  have e : input iptr % 1024 * 1024 + input (iptr + 1) % 1024 + 0x10000 =
      0x10000 + (input iptr % 1024 * 1024 + input (iptr + 1) % 1024) := by omega
  rw [e]

/-- Witness of C12: `(0xD800, 0xDC00)` decodes to `0x10000` and
`(0xDBFF, 0xDFFF)` to `0x10FFFF`. -/
theorem surrogate_pair_decoding_witness :
    utf16_to_wchar (ofList [0xD800, 0xDC00]) 0 2 = some (0x10000, 2) ∧
    utf16_to_wchar (ofList [0xDBFF, 0xDFFF]) 0 2 = some (0x10FFFF, 2) := by
  have h1 := (surrogate_pair_decoding (ofList [0xD800, 0xDC00]) 0 2
    (by decide) (by decide) (by decide)).1
  have h2 := (surrogate_pair_decoding (ofList [0xDBFF, 0xDFFF]) 0 2
    (by decide) (by decide) (by decide)).1
  exact ⟨by rw [h1]; decide, by rw [h2]; decide⟩

theorem spec_utf8_encode_length_eq (w : Nat) (hw : w ≤ 0x7fffffff) :
    (spec_utf8_encode w).length = spec_utf8_length w := by
  rw [spec_utf8_encode_length w hw]
  rfl

/-- C13: `wchar_to_utf8` implements the encoding table. For a scalar
`wc ≤ 0x7FFFFFFF` the required length is 1, 2, 3, 4, 5, 6 for `wc` up to `0x7F`,
`0x7FF`, `0xFFFF`, `0x1FFFFF`, `0x3FFFFFF`, `0x7FFFFFFF`; the call fails if and
only if `outsize` is smaller; otherwise it returns the position advanced by
that length and has written exactly the bytes of the table there (the lead
byte, then `0x80 | ` each next group of 6 bits, most significant first), each
of them a byte value, and nothing else. -/
theorem wchar_to_utf8_table (mem : Mem) (output w outsize : Nat) (hw : w ≤ 0x7FFFFFFF) :
    (spec_utf8_encode w).length = spec_utf8_length w ∧
    (wchar_to_utf8 mem output (w : Int) outsize = none ↔ outsize < spec_utf8_length w) ∧
    (spec_utf8_length w ≤ outsize →
      ∃ mem', wchar_to_utf8 mem output (w : Int) outsize =
          some (mem', output + spec_utf8_length w) ∧
        readBuf mem' output (spec_utf8_length w) = spec_utf8_encode w ∧
        (∀ b ∈ spec_utf8_encode w, b < 256) ∧
        ∀ i, i < output ∨ output + spec_utf8_length w ≤ i → mem' i = mem i) := by
  have hlen := spec_utf8_encode_length_eq w hw
  have he := wchar_to_utf8_eq_spec mem output w outsize hw
  rw [hlen] at he
  refine ⟨hlen, ?_, fun hcap => ?_⟩
  · rw [he]
    by_cases hc : outsize < spec_utf8_length w
    · simp [hc]
    · simp [hc]
  · rw [if_neg (by omega)] at he
    refine ⟨_, he, ?_, ?_, (wchar_to_utf8_frame he).2.2⟩
    · rw [← hlen]
      exact readBuf_storeList _ mem output
    · rw [spec_utf8_encode_arith w hw]
      split_ifs <;> intro b hb <;> simp only [List.mem_cons, List.mem_singleton,
        List.not_mem_nil, or_false] at hb <;> omega

/-- Witness of C13: U+20AC needs three bytes, `{0xE2, 0x82, 0xAC}`; the call
fails with `outsize = 2` and writes them with `outsize = 3`. -/
theorem wchar_to_utf8_table_witness :
    (0x20AC ≤ 0x7FFFFFFF) ∧ spec_utf8_length 0x20AC = 3 ∧
    spec_utf8_encode 0x20AC = [0xE2, 0x82, 0xAC] ∧
    wchar_to_utf8 (fun _ => 0) 5 ((0x20AC : Nat) : Int) 2 = none ∧
    ∃ mem', wchar_to_utf8 (fun _ => 0) 5 ((0x20AC : Nat) : Int) 3 = some (mem', 5 + 3) ∧
      readBuf mem' 5 3 = [0xE2, 0x82, 0xAC] := by
  have h2 := wchar_to_utf8_table (fun _ => 0) 5 0x20AC 2 (by decide)
  have h3 := wchar_to_utf8_table (fun _ => 0) 5 0x20AC 3 (by decide)
  have hl : spec_utf8_length 0x20AC = 3 := by decide
  have hb : spec_utf8_encode 0x20AC = [0xE2, 0x82, 0xAC] := by decide
  rw [hl, hb] at h2 h3
  obtain ⟨mem', hm, hr, _⟩ := h3.2.2 (by decide)
  exact ⟨by decide, hl, hb, h2.2.1.2 (by decide), mem', hm, hr⟩

/-- C14 (amended): `wchar_to_utf8` rejects every value above `0x7FFFFFFF`: for
every `wc > 0x7FFFFFFF` and every `outsize` it returns failure and writes
nothing. It has no test of a lower bound: a negative `wchar_t` value passes the
signed test `wc <= 0x7f`, so it fails only for `outsize < 1` and otherwise
writes the single byte `(char) wc` and advances by 1. -/
theorem wchar_to_utf8_rejects_above_range (mem : Mem) (output outsize : Nat) (wc : Int) :
    (0x7FFFFFFF < wc → wchar_to_utf8 mem output wc outsize = none) ∧
    (wc < 0 →
      (wchar_to_utf8 mem output wc outsize = none ↔ outsize < 1) ∧
      (1 ≤ outsize → wchar_to_utf8 mem output wc outsize =
        some (store mem output (wc % 256).toNat, output + 1))) := by
  refine ⟨fun h => ?_, fun h => ⟨?_, fun ho => ?_⟩⟩
  · unfold wchar_to_utf8
    simp only
    rw [if_neg (by omega), if_neg (by omega), if_neg (by omega), if_neg (by omega),
      if_neg (by omega), if_neg (by omega)]
  · unfold wchar_to_utf8
    simp only
    rw [if_pos (by omega)]
    by_cases ho : outsize < 1
    · simp [ho]
    · simp [ho]
  · unfold wchar_to_utf8
    simp only
    rw [if_pos (by omega), if_neg (by omega)]

/-- Witness of C14 (amended): `0x80000000` is rejected even with room for six
bytes; `-2147483648`, the `int` with the same 32-bit pattern, is written as the
byte `0x00`. -/
theorem wchar_to_utf8_rejects_above_range_witness :
    (0x7FFFFFFF : Int) < 0x80000000 ∧
    wchar_to_utf8 (fun _ => 0xAA) 0 0x80000000 6 = none ∧
    (-2147483648 : Int) < 0 ∧
    wchar_to_utf8 (fun _ => 0xAA) 0 (-2147483648) 6 = some (store (fun _ => 0xAA) 0 0, 1) := by
  have h1 := (wchar_to_utf8_rejects_above_range (fun _ => 0xAA) 0 6 0x80000000).1
    (by decide)
  have h2 := ((wchar_to_utf8_rejects_above_range (fun _ => 0xAA) 0 6 (-2147483648)).2
    (by decide)).2 (by decide)
  exact ⟨by decide, h1, by decide, h2⟩

/-- Counterexample to C14 as stated: `wc = -1` is outside `0..0x7FFFFFFF` (its
32-bit pattern is `0xFFFFFFFF`), yet with `outsize = 1` the call does not fail:
it writes the byte `0xFF` at `output` and returns `output + 1`. So it is false
that every value outside `0..0x7FFFFFFF` is rejected with nothing written. -/
theorem wchar_to_utf8_rejects_outside_range_counterexample :
    ¬ (0 ≤ (-1 : Int) ∧ (-1 : Int) ≤ 0x7FFFFFFF) ∧
    wchar_to_utf8 (fun _ => 0) 0 (-1) 1 = some (store (fun _ => 0) 0 0xFF, 1) ∧
    store (fun _ => 0) 0 0xFF 0 ≠ (fun _ => 0) 0 ∧
    ¬ (∀ (mem : Mem) (output outsize : Nat) (wc : Int), ¬ (0 ≤ wc ∧ wc ≤ 0x7FFFFFFF) →
      wchar_to_utf8 mem output wc outsize = none) := by
  have e : wchar_to_utf8 (fun _ => 0) 0 (-1) 1 = some (store (fun _ => 0) 0 0xFF, 1) := by
    unfold wchar_to_utf8
    simp only
    rw [if_pos (by decide), if_neg (by decide)]
    rfl
  refine ⟨by decide, e, by decide, fun hall => ?_⟩
  have hn := hall (fun _ => 0) 0 1 (-1) (by decide)
  rw [e] at hn
  exact Option.noConfusion hn

theorem surr_hi_spec (t : Nat) : 0xD800 ||| (t &&& 0x3FF) = 0xd800 + t % 1024 := by
  rw [and_3ff, or_eq_add 0xd800 (t % 1024) 10 ⟨54, by norm_num⟩ (by omega)]

theorem surr_lo_spec (t : Nat) : 0xDC00 ||| (t &&& 0x3FF) = 0xdc00 + t % 1024 := by
  rw [and_3ff, or_eq_add 0xdc00 (t % 1024) 10 ⟨55, by norm_num⟩ (by omega)]

theorem wchar_to_utf16_bmp (mem : Mem) (output w outsize : Nat) (hw : w ≤ 0xFFFF) :
    wchar_to_utf16 mem output (w : Int) outsize =
      if outsize = 0 then none else some (store mem output w, output + 1) := by
  unfold wchar_to_utf16
  have e : ((w : Int) % 65536).toNat = w := by omega
  rw [if_pos (by omega), e]

theorem wchar_to_utf16_pair (mem : Mem) (output w outsize : Nat) (hw : 0xFFFF < w) :
    wchar_to_utf16 mem output (w : Int) outsize =
      if outsize < 2 then none
      else some (store (store mem output (0xd800 + (w - 0x10000) / 1024 % 1024))
        (output + 1) (0xdc00 + (w - 0x10000) % 1024), output + 2) := by
  unfold wchar_to_utf16
  have e : ((w : Int) - 0x10000).toNat = w - 0x10000 := by omega
  rw [if_neg (by omega)]
  simp only [e, surr_hi, surr_lo, shr10]

/-- C15: `wchar_to_utf16` on a scalar `wc ≤ 0xFFFF` (surrogate values included)
fails iff `outsize = 0` and otherwise writes the single code unit `wc` and
advances by 1; on a scalar in `0x10000..0x10FFFF` it fails iff `outsize < 2` and
otherwise writes, with `v = wc - 0x10000`, the high surrogate
`0xD800 | ((v >> 10) & 0x3FF)` then the low surrogate `0xDC00 | (v & 0x3FF)` and
advances by 2; nothing else is written. -/
theorem wchar_to_utf16_encoding (mem : Mem) (output w outsize : Nat) :
    (w ≤ 0xFFFF →
      (wchar_to_utf16 mem output (w : Int) outsize = none ↔ outsize = 0) ∧
      (outsize ≠ 0 → ∃ mem', wchar_to_utf16 mem output (w : Int) outsize =
          some (mem', output + 1) ∧ mem' output = w ∧
        ∀ i, i ≠ output → mem' i = mem i)) ∧
    (0x10000 ≤ w → w ≤ 0x10FFFF →
      (wchar_to_utf16 mem output (w : Int) outsize = none ↔ outsize < 2) ∧
      (2 ≤ outsize → ∃ mem', wchar_to_utf16 mem output (w : Int) outsize =
          some (mem', output + 2) ∧
        mem' output = 0xD800 ||| (((w - 0x10000) >>> 10) &&& 0x3FF) ∧
        mem' (output + 1) = 0xDC00 ||| ((w - 0x10000) &&& 0x3FF) ∧
        ∀ i, i ≠ output → i ≠ output + 1 → mem' i = mem i)) := by
  constructor
  · intro hw
    rw [wchar_to_utf16_bmp mem output w outsize hw]
    constructor
    · by_cases h : outsize = 0 <;> simp [h]
    · intro h
      rw [if_neg h]
      exact ⟨_, rfl, store_self _ _ _, fun i hi => store_of_ne _ _ _ _ hi⟩
  · intro h1 _
    rw [wchar_to_utf16_pair mem output w outsize (by omega)]
    constructor
    · by_cases h : outsize < 2 <;> simp [h]
    · intro h
      rw [if_neg (by omega), surr_hi_spec, surr_lo_spec, shr10]
      refine ⟨_, rfl, ?_, ?_, fun i hi hi' => ?_⟩
      · simp [store_apply]
      · simp [store_apply]
      · simp [store_apply, hi, hi']

/-- Witness of C15: the lone surrogate value `0xD800` is written as it is, and
`0x1F600` becomes the pair `(0xD83D, 0xDE00)`. -/
theorem wchar_to_utf16_encoding_witness :
    (∃ mem', wchar_to_utf16 (fun _ => 0) 0 ((0xD800 : Nat) : Int) 1 = some (mem', 0 + 1) ∧
      mem' 0 = 0xD800) ∧
    (wchar_to_utf16 (fun _ => 0) 0 ((0x1F600 : Nat) : Int) 1 = none) ∧
    (∃ mem', wchar_to_utf16 (fun _ => 0) 0 ((0x1F600 : Nat) : Int) 2 = some (mem', 0 + 2) ∧
      mem' 0 = 0xD83D ∧ mem' (0 + 1) = 0xDE00) := by
  have h1 := (wchar_to_utf16_encoding (fun _ => 0) 0 0xD800 1).1 (by decide)
  have h2 := (wchar_to_utf16_encoding (fun _ => 0) 0 0x1F600 1).2 (by decide) (by decide)
  have h3 := (wchar_to_utf16_encoding (fun _ => 0) 0 0x1F600 2).2 (by decide) (by decide)
  obtain ⟨m1, e1, v1, _⟩ := h1.2 (by decide)
  obtain ⟨m3, e3, v3, v3', _⟩ := h3.2 (by decide)
  exact ⟨⟨m1, e1, v1⟩, h2.1.2 (by decide), ⟨m3, e3, by rw [v3]; decide, by rw [v3']; decide⟩⟩

/-! ## Continuation bytes of UTF-8 are masked -/

theorem dec5 (x y z t u : Nat) :
    ((x &&& 0x03) <<< 24) ||| ((y &&& 0x3f) <<< 18) ||| ((z &&& 0x3f) <<< 12) |||
        ((t &&& 0x3f) <<< 6) ||| (u &&& 0x3f) =
      x % 4 * 16777216 + y % 64 * 262144 + z % 64 * 4096 + t % 64 * 64 + u % 64 := by
  rw [and_03, and_3f, and_3f, and_3f, and_3f, Nat.shiftLeft_eq, Nat.shiftLeft_eq,
    Nat.shiftLeft_eq, Nat.shiftLeft_eq]
  rw [or_eq_add (x % 4 * 2 ^ 24) (y % 64 * 2 ^ 18) 24 ⟨x % 4, Nat.mul_comm _ _⟩ (by omega)]
  rw [or_eq_add (x % 4 * 2 ^ 24 + y % 64 * 2 ^ 18) (z % 64 * 2 ^ 12) 18
    ⟨x % 4 * 64 + y % 64, by omega⟩ (by omega)]
  rw [or_eq_add (x % 4 * 2 ^ 24 + y % 64 * 2 ^ 18 + z % 64 * 2 ^ 12) (t % 64 * 2 ^ 6) 12
    ⟨x % 4 * 4096 + y % 64 * 64 + z % 64, by omega⟩ (by omega)]
  exact or_eq_add _ _ 6 ⟨x % 4 * 262144 + y % 64 * 4096 + z % 64 * 64 + t % 64, by omega⟩
    (by omega)

theorem dec6 (x y z t u v : Nat) :
    ((x &&& 0x01) <<< 30) ||| ((y &&& 0x3f) <<< 24) ||| ((z &&& 0x3f) <<< 18) |||
        ((t &&& 0x3f) <<< 12) ||| ((u &&& 0x3f) <<< 6) ||| (v &&& 0x3f) =
      x % 2 * 1073741824 + y % 64 * 16777216 + z % 64 * 262144 + t % 64 * 4096 +
        u % 64 * 64 + v % 64 := by
  rw [and_01, and_3f, and_3f, and_3f, and_3f, and_3f, Nat.shiftLeft_eq, Nat.shiftLeft_eq,
    Nat.shiftLeft_eq, Nat.shiftLeft_eq, Nat.shiftLeft_eq]
  rw [or_eq_add (x % 2 * 2 ^ 30) (y % 64 * 2 ^ 24) 30 ⟨x % 2, Nat.mul_comm _ _⟩ (by omega)]
  rw [or_eq_add (x % 2 * 2 ^ 30 + y % 64 * 2 ^ 24) (z % 64 * 2 ^ 18) 24
    ⟨x % 2 * 64 + y % 64, by omega⟩ (by omega)]
  rw [or_eq_add (x % 2 * 2 ^ 30 + y % 64 * 2 ^ 24 + z % 64 * 2 ^ 18) (t % 64 * 2 ^ 12) 18
    ⟨x % 2 * 4096 + y % 64 * 64 + z % 64, by omega⟩ (by omega)]
  rw [or_eq_add (x % 2 * 2 ^ 30 + y % 64 * 2 ^ 24 + z % 64 * 2 ^ 18 + t % 64 * 2 ^ 12)
    (u % 64 * 2 ^ 6) 12
    ⟨x % 2 * 262144 + y % 64 * 4096 + z % 64 * 64 + t % 64, by omega⟩ (by omega)]
  exact or_eq_add _ _ 6
    ⟨x % 2 * 16777216 + y % 64 * 262144 + z % 64 * 4096 + t % 64 * 64 + u % 64, by omega⟩
    (by omega)

theorem utf8_to_wchar_len5 (input : Mem) (iptr insize : Nat)
    (hb : 0xf8 ≤ input iptr ∧ input iptr < 0xfc) (hn : 5 ≤ insize) :
    utf8_to_wchar input iptr insize =
      some (((input iptr % 4 * 16777216 + input (iptr + 1) % 64 * 262144 +
        input (iptr + 2) % 64 * 4096 + input (iptr + 3) % 64 * 64 +
        input (iptr + 4) % 64 : Nat) : Int), iptr + 5) := by
  unfold utf8_to_wchar
  simp only [and_80, and_e0, and_f0, and_f8, and_fc, dec5]
  rw [if_neg (by omega), if_neg (by omega), if_neg (by omega), if_neg (by omega),
    if_pos (by omega)]

theorem utf8_to_wchar_len6 (input : Mem) (iptr insize : Nat)
    (hb : 0xfc ≤ input iptr ∧ input iptr < 0xfe) (hn : 6 ≤ insize) :
    utf8_to_wchar input iptr insize =
      some (((input iptr % 2 * 1073741824 + input (iptr + 1) % 64 * 16777216 +
        input (iptr + 2) % 64 * 262144 + input (iptr + 3) % 64 * 4096 +
        input (iptr + 4) % 64 * 64 + input (iptr + 5) % 64 : Nat) : Int), iptr + 6) := by
  unfold utf8_to_wchar
  simp only [and_80, and_e0, and_f0, and_f8, and_fc, and_fe, dec6]
  rw [if_neg (by omega), if_neg (by omega), if_neg (by omega), if_neg (by omega),
    if_neg (by omega), if_pos (by omega)]

theorem shl6_or (a c : Nat) : (a <<< 6) ||| (c &&& 0x3F) = a * 64 + c % 64 := by
  rw [and_3f, Nat.shiftLeft_eq]
  exact or_eq_add _ _ 6 ⟨a, Nat.mul_comm _ _⟩ (by omega)

theorem utf8_to_wchar_multibyte (input : Mem) (iptr insize len : Nat)
    (hb : input iptr < 256) (hlen : spec_utf8_lead_length (input iptr) = some len)
    (h2 : 2 ≤ len) (hn : len ≤ insize) :
    utf8_to_wchar input iptr insize =
      some (((spec_utf8_scalar (spec_utf8_lead_payload (input iptr) len)
        (readBuf input (iptr + 1) (len - 1)) : Nat) : Int), iptr + len) := by
  unfold spec_utf8_lead_length at hlen
  split_ifs at hlen <;> simp only [Option.some.injEq, reduceCtorEq] at hlen <;> subst hlen
  · omega
  · rw [utf8_to_wchar_len2 input iptr insize (by omega) hn]
    simp only [readBuf, List.range', List.map, spec_utf8_scalar, spec_utf8_lead_payload,
      shl6_or, and_1f, Nat.add_assoc, Nat.reduceAdd]
  · rw [utf8_to_wchar_len3 input iptr insize (by omega) hn]
    simp only [readBuf, List.range', List.map, spec_utf8_scalar, spec_utf8_lead_payload,
      shl6_or, and_0f, Nat.add_assoc, Nat.reduceAdd]
    congr 2
    omega
  · rw [utf8_to_wchar_len4 input iptr insize (by omega) hn]
    simp only [readBuf, List.range', List.map, spec_utf8_scalar, spec_utf8_lead_payload,
      shl6_or, and_07, Nat.add_assoc, Nat.reduceAdd]
    congr 2
    omega
  · rw [utf8_to_wchar_len5 input iptr insize (by omega) hn]
    simp only [readBuf, List.range', List.map, spec_utf8_scalar, spec_utf8_lead_payload,
      shl6_or, and_03, Nat.add_assoc, Nat.reduceAdd]
    congr 2
    omega
  · rw [utf8_to_wchar_len6 input iptr insize (by omega) hn]
    simp only [readBuf, List.range', List.map, spec_utf8_scalar, spec_utf8_lead_payload,
      shl6_or, and_01, Nat.add_assoc, Nat.reduceAdd]
    congr 2
    omega

/-- C16: continuation bytes are masked, never rejected. For a lead byte that
announces `len` in `2..6` and any following bytes, with `insize ≥ len`,
`utf8_to_wchar` succeeds, advances by `len` and yields the scalar built from the
payload bits of the lead byte and the low 6 bits of each following byte; an
input with the same lead byte whose following bytes differ only above their
low 6 bits (in their top two bits) decodes to the same result. -/
theorem continuation_bytes_masked (input input' : Mem) (iptr insize len : Nat)
    (hb : input iptr < 256) (hlen : spec_utf8_lead_length (input iptr) = some len)
    (h2 : 2 ≤ len) (hn : len ≤ insize)
    (hlead : input' iptr = input iptr)
    (hlow : ∀ j, 1 ≤ j → j < len → input' (iptr + j) % 64 = input (iptr + j) % 64) :
    utf8_to_wchar input iptr insize =
      some (((spec_utf8_scalar (spec_utf8_lead_payload (input iptr) len)
        (readBuf input (iptr + 1) (len - 1)) : Nat) : Int), iptr + len) ∧
    utf8_to_wchar input' iptr insize = utf8_to_wchar input iptr insize := by
  refine ⟨utf8_to_wchar_multibyte input iptr insize len hb hlen h2 hn, ?_⟩
  unfold spec_utf8_lead_length at hlen
  split_ifs at hlen <;> simp only [Option.some.injEq, reduceCtorEq] at hlen <;> subst hlen
  · omega
  · rw [utf8_to_wchar_len2 input iptr insize (by omega) hn,
      utf8_to_wchar_len2 input' iptr insize (by rw [hlead]; omega) hn,
      hlead, hlow 1 (by omega) (by omega)]
  · rw [utf8_to_wchar_len3 input iptr insize (by omega) hn,
      utf8_to_wchar_len3 input' iptr insize (by rw [hlead]; omega) hn,
      hlead, hlow 1 (by omega) (by omega), hlow 2 (by omega) (by omega)]
  · rw [utf8_to_wchar_len4 input iptr insize (by omega) hn,
      utf8_to_wchar_len4 input' iptr insize (by rw [hlead]; omega) hn,
      hlead, hlow 1 (by omega) (by omega), hlow 2 (by omega) (by omega),
      hlow 3 (by omega) (by omega)]
  · rw [utf8_to_wchar_len5 input iptr insize (by omega) hn,
      utf8_to_wchar_len5 input' iptr insize (by rw [hlead]; omega) hn,
      hlead, hlow 1 (by omega) (by omega), hlow 2 (by omega) (by omega),
      hlow 3 (by omega) (by omega), hlow 4 (by omega) (by omega)]
  · rw [utf8_to_wchar_len6 input iptr insize (by omega) hn,
      utf8_to_wchar_len6 input' iptr insize (by rw [hlead]; omega) hn,
      hlead, hlow 1 (by omega) (by omega), hlow 2 (by omega) (by omega),
      hlow 3 (by omega) (by omega), hlow 4 (by omega) (by omega),
      hlow 5 (by omega) (by omega)]

/-- Witness of C16: the overlong form `{0xC0, 0x80}` decodes to the scalar 0, and
so does `{0xC0, 0x00}`, whose second byte is not a continuation byte. -/
theorem continuation_bytes_masked_witness :
    spec_utf8_lead_length (ofList [0xC0, 0x80] 0) = some 2 ∧
    utf8_to_wchar (ofList [0xC0, 0x80]) 0 2 = some (0, 2) ∧
    utf8_to_wchar (ofList [0xC0, 0x00]) 0 2 = some (0, 2) := by
  have h := continuation_bytes_masked (ofList [0xC0, 0x80]) (ofList [0xC0, 0x00]) 0 2 2
    (by decide) (by decide) (by decide) (by decide) (by decide) (by decide)
  have e : utf8_to_wchar (ofList [0xC0, 0x80]) 0 2 = some (0, 2) := by
    rw [h.1]; decide
  exact ⟨by decide, e, by rw [h.2, e]⟩

/-! ## Decoding what the encoders wrote -/

theorem rt2_arith (v : Nat) : (192 + v / 64) % 32 * 64 + (128 + v % 64) % 64 = v % 2048 := by
  omega

theorem rt3_arith (v : Nat) (h : v ≤ 0xffff) :
    (224 + v / 4096) % 16 * 4096 + (128 + v / 64 % 64) % 64 * 64 +
      (128 + v % 64) % 64 = v := by omega

theorem rt4_arith (v : Nat) (h : v ≤ 0x1fffff) :
    (240 + v / 262144) % 8 * 262144 + (128 + v / 4096 % 64) % 64 * 4096 +
      (128 + v / 64 % 64) % 64 * 64 + (128 + v % 64) % 64 = v := by omega

theorem rt5_arith (v : Nat) (h : v ≤ 0x3ffffff) :
    (248 + v / 16777216) % 4 * 16777216 + (128 + v / 262144 % 64) % 64 * 262144 +
      (128 + v / 4096 % 64) % 64 * 4096 + (128 + v / 64 % 64) % 64 * 64 +
      (128 + v % 64) % 64 = v := by omega

theorem rt6_arith (v : Nat) (h : v ≤ 0x7fffffff) :
    (252 + v / 1073741824) % 2 * 1073741824 +
      (128 + v / 16777216 % 64) % 64 * 16777216 +
      (128 + v / 262144 % 64) % 64 * 262144 +
      (128 + v / 4096 % 64) % 64 * 4096 + (128 + v / 64 % 64) % 64 * 64 +
      (128 + v % 64) % 64 = v := by omega

theorem utf8_to_wchar_of_encode (B : Mem) (p n v : Nat) (hv : v ≤ 0x7fffffff)
    (hB : ∀ j, j < (spec_utf8_encode v).length → B (p + j) = (spec_utf8_encode v).getD j 0)
    (hn : (spec_utf8_encode v).length ≤ n) :
    utf8_to_wchar B p n = some ((v : Int), p + (spec_utf8_encode v).length) := by
  have ha := spec_utf8_encode_arith v hv
  have r0 := hB 0
  have r1 := hB 1
  have r2 := hB 2
  have r3 := hB 3
  have r4 := hB 4
  have r5 := hB 5
  rw [ha] at r0 r1 r2 r3 r4 r5 hn ⊢
  by_cases h1 : v ≤ 0x7f
  · simp only [if_pos h1, List.length_cons, List.length_nil] at r0 hn ⊢
    have r0 := r0 (by omega)
    simp only [Nat.add_zero, List.getD_cons_zero] at r0
    rw [utf8_to_wchar_len1 _ _ _ (by rw [r0]; omega) (by omega), r0]
  by_cases h2 : v ≤ 0x7ff
  · simp only [if_neg h1, if_pos h2, List.length_cons, List.length_nil] at r0 r1 hn ⊢
    have r0 := r0 (by omega)
    have r1 := r1 (by omega)
    simp only [Nat.add_zero, List.getD_cons_zero, List.getD_cons_succ] at r0 r1
    rw [utf8_to_wchar_len2 _ _ _ (by rw [r0]; omega) (by omega), r0, r1]
    rw [rt2_arith, Nat.mod_eq_of_lt (by omega)]
  by_cases h3 : v ≤ 0xffff
  · simp only [if_neg h1, if_neg h2, if_pos h3, List.length_cons, List.length_nil]
      at r0 r1 r2 hn ⊢
    have r0 := r0 (by omega)
    have r1 := r1 (by omega)
    have r2 := r2 (by omega)
    simp only [Nat.add_zero, List.getD_cons_zero, List.getD_cons_succ] at r0 r1 r2
    rw [utf8_to_wchar_len3 _ _ _ (by rw [r0]; omega) (by omega), r0, r1, r2]
    rw [rt3_arith v h3]
  by_cases h4 : v ≤ 0x1fffff
  · simp only [if_neg h1, if_neg h2, if_neg h3, if_pos h4, List.length_cons, List.length_nil]
      at r0 r1 r2 r3 hn ⊢
    have r0 := r0 (by omega)
    have r1 := r1 (by omega)
    have r2 := r2 (by omega)
    have r3 := r3 (by omega)
    simp only [Nat.add_zero, List.getD_cons_zero, List.getD_cons_succ] at r0 r1 r2 r3
    rw [utf8_to_wchar_len4 _ _ _ (by rw [r0]; omega) (by omega), r0, r1, r2, r3]
    rw [rt4_arith v h4]
  by_cases h5 : v ≤ 0x3ffffff
  · simp only [if_neg h1, if_neg h2, if_neg h3, if_neg h4, if_pos h5, List.length_cons,
      List.length_nil] at r0 r1 r2 r3 r4 hn ⊢
    have r0 := r0 (by omega)
    have r1 := r1 (by omega)
    have r2 := r2 (by omega)
    have r3 := r3 (by omega)
    have r4 := r4 (by omega)
    simp only [Nat.add_zero, List.getD_cons_zero, List.getD_cons_succ] at r0 r1 r2 r3 r4
    rw [utf8_to_wchar_len5 _ _ _ (by rw [r0]; omega) (by omega), r0, r1, r2, r3, r4]
    rw [rt5_arith v h5]
  · simp only [if_neg h1, if_neg h2, if_neg h3, if_neg h4, if_neg h5, List.length_cons,
      List.length_nil] at r0 r1 r2 r3 r4 r5 hn ⊢
    have r0 := r0 (by omega)
    have r1 := r1 (by omega)
    have r2 := r2 (by omega)
    have r3 := r3 (by omega)
    have r4 := r4 (by omega)
    have r5 := r5 (by omega)
    simp only [Nat.add_zero, List.getD_cons_zero, List.getD_cons_succ] at r0 r1 r2 r3 r4 r5
    rw [utf8_to_wchar_len6 _ _ _ (by rw [r0]; omega) (by omega), r0, r1, r2, r3, r4, r5]
    rw [rt6_arith v hv]

theorem utf8_loop_step_bmp (input : Mem) (iend oend iptr optr : Nat) (mem : Mem)
    (W iptr' : Nat) (hlt : iptr < iend)
    (hdec : utf8_to_wchar input iptr (iend - iptr) = some ((W : Int), iptr'))
    (hW0 : W ≠ 0) (hW : W ≤ 0xffff) :
    utf8_to_utf16_loop input iend oend iptr optr mem =
      if oend - optr = 0 then ⟨-ENAMETOOLONG, mem, optr⟩
      else utf8_to_utf16_loop input iend oend iptr' (optr + 1) (store mem optr W) := by
  rw [utf8_loop_step _ _ _ _ _ _ hlt, hdec]
  simp only [wchar_to_utf16_bmp mem optr W (oend - optr) hW]
  by_cases hc : oend - optr = 0
  · simp only [if_pos hc]
  · have hne : ¬ ((W : Int) = 0) := by omega
    simp only [if_neg hc, if_neg hne]

theorem utf8_loop_step_pair (input : Mem) (iend oend iptr optr : Nat) (mem : Mem)
    (W iptr' : Nat) (hlt : iptr < iend)
    (hdec : utf8_to_wchar input iptr (iend - iptr) = some ((W : Int), iptr'))
    (hW : 0xffff < W) :
    utf8_to_utf16_loop input iend oend iptr optr mem =
      if oend - optr < 2 then ⟨-ENAMETOOLONG, mem, optr⟩
      else utf8_to_utf16_loop input iend oend iptr' (optr + 2)
        (store (store mem optr (0xd800 + (W - 0x10000) / 1024 % 1024)) (optr + 1)
          (0xdc00 + (W - 0x10000) % 1024)) := by
  rw [utf8_loop_step _ _ _ _ _ _ hlt, hdec]
  simp only [wchar_to_utf16_pair mem optr W (oend - optr) hW]
  by_cases hc : oend - optr < 2
  · simp only [if_pos hc]
  · have hne : ¬ ((W : Int) = 0) := by omega
    simp only [if_neg hc, if_neg hne]

/-! ## Unpaired low surrogates -/

/-- C17: a code unit that is not a high surrogate (`(u & 0xFC00) != 0xD800`,
which every low surrogate satisfies) is passed through: with `insize ≥ 1`,
`utf16_to_wchar` succeeds, yields the scalar `u` and advances by exactly 1.
Hence `utf16_to_utf8` on a single low surrogate `u` with `outsize ≥ 4` returns 0
and writes the 3-byte encoding of `u` followed by `0x00`, and nothing else. -/
theorem unpaired_low_surrogate_passthrough (mem input : Mem) (iptr insize outsize : Nat) :
    (input iptr &&& 0xFC00 ≠ 0xD800 → 1 ≤ insize →
      utf16_to_wchar input iptr insize = some (((input iptr : Nat) : Int), iptr + 1)) ∧
    (isLowSurrogate (input iptr) → input iptr &&& 0xFC00 ≠ 0xD800) ∧
    (isLowSurrogate (input 0) → 4 ≤ outsize →
      (utf16_to_utf8 mem input outsize 1).status = 0 ∧
      (utf16_to_utf8 mem input outsize 1).written = 4 ∧
      readBuf (utf16_to_utf8 mem input outsize 1).mem 0 4 =
        [0xE0 ||| (input 0 >>> 12), 0x80 ||| ((input 0 >>> 6) &&& 0x3F),
          0x80 ||| (input 0 &&& 0x3F), 0x00] ∧
      ∀ i, 4 ≤ i → (utf16_to_utf8 mem input outsize 1).mem i = mem i) := by
  refine ⟨fun h _ => ?_, fun h => ?_, fun hl hcap => ?_⟩
  · rw [and_fc00] at h
    exact utf16_to_wchar_single input iptr insize (by omega)
  · unfold isLowSurrogate at h
    rw [and_fc00]
    omega
  · have hl' := hl
    unfold isLowSurrogate at hl'
    have hr : ∀ i < 1, input i < 65536 := by
      intro i hi
      have e : i = 0 := by omega
      rw [e]; omega
    have hnz : ∀ i < 1, input i ≠ 0 := by
      intro i hi
      have e : i = 0 := by omega
      rw [e]; omega
    have hp : ∀ i < 1, isHighSurrogate (input i) →
        i + 1 < 1 ∧ isLowSurrogate (input (i + 1)) := by
      intro i hi hh
      have e : i = 0 := by omega
      rw [e] at hh
      unfold isHighSurrogate at hh
      omega
    have hnh : ¬ isHighSurrogate (input 0) := by
      unfold isHighSurrogate; omega
    have henc : spec_utf8_encode (input 0) =
        [0xE0 ||| (input 0 >>> 12), 0x80 ||| ((input 0 >>> 6) &&& 0x3F),
          0x80 ||| (input 0 &&& 0x3F)] := by
      unfold spec_utf8_encode
      rw [if_neg (by omega), if_neg (by omega), if_pos (by omega)]
    have hb : spec_utf8_string (spec_utf16_scalars (readBuf input 0 (1 - 0))) =
        spec_utf8_encode (input 0) := by
      simp [readBuf, List.range', spec_utf16_scalars, hnh, spec_utf8_string]
    obtain ⟨h1, _⟩ := utf16_loop_wellformed input 1 outsize hr hnz hp 1 0 0 mem rfl
    rw [hb, henc] at h1
    have h1' := h1 (by simp only [List.length_cons, List.length_nil]; omega)
    unfold utf16_to_utf8
    rw [h1']
    refine ⟨rfl, rfl, ?_, fun i hi => ?_⟩
    · exact readBuf_storeList _ mem 0
    · refine storeList_frame _ mem 0 i (Or.inr ?_)
      simp only [List.length_cons, List.length_nil, List.length_append]
      omega

/-- Witness of C17: the lone low surrogate `0xDC00` converts to
`{0xED, 0xB0, 0x80, 0x00}`. -/
theorem unpaired_low_surrogate_passthrough_witness :
    isLowSurrogate (ofList [0xDC00] 0) ∧
    utf16_to_wchar (ofList [0xDC00]) 0 1 = some (0xDC00, 1) ∧
    (utf16_to_utf8 (fun _ => 0xFF) (ofList [0xDC00]) 4 1).status = 0 ∧
    readBuf (utf16_to_utf8 (fun _ => 0xFF) (ofList [0xDC00]) 4 1).mem 0 4 =
      [0xED, 0xB0, 0x80, 0x00] := by
  have h := unpaired_low_surrogate_passthrough (fun _ => 0xFF) (ofList [0xDC00]) 0 1 4
  have h3 := h.2.2 (by decide) (by decide)
  refine ⟨by decide, ?_, h3.1, ?_⟩
  · rw [h.1 (by decide) (by decide)]; decide
  · rw [h3.2.2.1]; decide

/-! ## Worst-case output size of `utf16_to_utf8` -/

theorem utf16_to_wchar_bound {input : Mem} {iptr insize : Nat} {wc : Int} {p : Nat}
    (h : utf16_to_wchar input iptr insize = some (wc, p)) (hu : input iptr < 65536) :
    ∃ W : Nat, wc = (W : Int) ∧
      ((p = iptr + 1 ∧ W ≤ 0xffff) ∨ (p = iptr + 2 ∧ 2 ≤ insize ∧ 0xffff < W ∧ W ≤ 0x10ffff)) := by
  unfold utf16_to_wchar at h
  simp only [dec_pair] at h
  split at h
  · split at h
    · simp at h
    · simp only [Option.some.injEq, Prod.mk.injEq] at h
      exact ⟨_, h.1.symm, Or.inr ⟨by omega, by omega, by omega, by omega⟩⟩
  · simp only [Option.some.injEq, Prod.mk.injEq] at h
    exact ⟨_, h.1.symm, Or.inl ⟨by omega, by omega⟩⟩

theorem utf16_loop_worst_case (input : Mem) (iend oend : Nat)
    (hr : ∀ i < iend, input i < 65536) (iptr optr : Nat) (mem : Mem) :
    (utf16_to_utf8_loop input iend oend iptr optr mem).written ≤
        optr + 3 * (iend - iptr) + 1 ∧
    (optr + 3 * (iend - iptr) + 1 ≤ oend →
      (utf16_to_utf8_loop input iend oend iptr optr mem).status = 0 ∨
      (utf16_to_utf8_loop input iend oend iptr optr mem).status = -EILSEQ) := by
  refine utf16_to_utf8_loop.induct input iend oend
    (fun iptr optr mem =>
      (utf16_to_utf8_loop input iend oend iptr optr mem).written ≤
          optr + 3 * (iend - iptr) + 1 ∧
      (optr + 3 * (iend - iptr) + 1 ≤ oend →
        (utf16_to_utf8_loop input iend oend iptr optr mem).status = 0 ∨
        (utf16_to_utf8_loop input iend oend iptr optr mem).status = -EILSEQ))
    ?_ ?_ ?_ ?_ ?_ ?_ iptr optr mem
  · intro iptr optr mem hlt hdec
    rw [utf16_loop_step _ _ _ _ _ _ hlt, hdec]
    exact ⟨by simp only; omega, fun _ => Or.inr rfl⟩
  · intro iptr optr mem hlt wc iptr' hdec henc
    rw [utf16_loop_step _ _ _ _ _ _ hlt, hdec]
    simp only [henc]
    refine ⟨by omega, fun hcap => ?_⟩
    exfalso
    obtain ⟨W, rfl, hW⟩ := utf16_to_wchar_bound hdec (hr _ hlt)
    rw [wchar_to_utf8_eq_spec mem optr W (oend - optr) (by omega)] at henc
    have hlen := spec_utf8_encode_length W (by omega)
    by_cases hc : oend - optr < (spec_utf8_encode W).length
    · rw [hlen] at hc
      rcases hW with ⟨_, hW⟩ | ⟨_, h2, _, hW⟩
      · split_ifs at hc <;> omega
      · split_ifs at hc <;> omega
    · rw [if_neg hc] at henc
      exact Option.noConfusion henc
  · intro iptr optr mem hlt iptr' mem' optr' hdec henc
    rw [utf16_loop_step _ _ _ _ _ _ hlt, hdec]
    simp only [henc, if_true]
    have hz := wchar_to_utf8_zero henc
    exact ⟨by omega, fun _ => Or.inl trivial⟩
  · intro iptr optr mem hlt wc iptr' hdec mem' optr' henc hwc ih
    rw [utf16_loop_step _ _ _ _ _ _ hlt, hdec]
    simp only [henc, if_neg hwc]
    obtain ⟨W, rfl, hW⟩ := utf16_to_wchar_bound hdec (hr _ hlt)
    rw [wchar_to_utf8_eq_spec mem optr W (oend - optr) (by omega)] at henc
    have hlen := spec_utf8_encode_length W (by omega)
    have hadv : optr' + 3 * (iend - iptr') ≤ optr + 3 * (iend - iptr) := by
      by_cases hc : oend - optr < (spec_utf8_encode W).length
      · rw [if_pos hc] at henc
        exact Option.noConfusion henc
      · rw [if_neg hc] at henc
        simp only [Option.some.injEq, Prod.mk.injEq] at henc
        obtain ⟨_, rfl⟩ := henc
        rw [hlen]
        rcases hW with ⟨rfl, hW⟩ | ⟨rfl, h2, _, hW⟩
        · split_ifs <;> omega
        · split_ifs <;> omega
    exact ⟨by omega, fun hcap => ih.2 (by omega)⟩
  · intro iptr optr mem hlt hge
    rw [utf16_loop_done _ _ _ _ _ _ hlt, if_pos hge]
    exact ⟨by simp only; omega, fun hcap => by omega⟩
  · intro iptr optr mem hlt hge
    rw [utf16_loop_done _ _ _ _ _ _ hlt, if_neg hge]
    exact ⟨by simp only; omega, fun _ => Or.inl rfl⟩

/-- C19: for every UTF-16 input of 16-bit units, `utf16_to_utf8` writes at most
`3 * insize + 1` bytes, whatever `outsize` is; and for `outsize ≥ 3 * insize + 1`
it never returns `-ENAMETOOLONG`: its status is 0 or `-EILSEQ`. -/
theorem utf16_to_utf8_worst_case (mem input : Mem) (outsize insize : Nat)
    (hr : ∀ i < insize, input i < 65536) :
    (utf16_to_utf8 mem input outsize insize).written ≤ 3 * insize + 1 ∧
    (3 * insize + 1 ≤ outsize →
      (utf16_to_utf8 mem input outsize insize).status ≠ -ENAMETOOLONG ∧
      ((utf16_to_utf8 mem input outsize insize).status = 0 ∨
        (utf16_to_utf8 mem input outsize insize).status = -EILSEQ)) := by
  obtain ⟨h1, h2⟩ := utf16_loop_worst_case input insize outsize hr 0 0 mem
  unfold utf16_to_utf8
  refine ⟨by omega, fun hcap => ?_⟩
  have h := h2 (by omega)
  refine ⟨fun hbad => ?_, h⟩
  rcases h with h | h
  · rw [h] at hbad
    exact absurd hbad (by decide)
  · rw [h] at hbad
    exact absurd hbad (by decide)

/-- Witness of C19: the two units `{0xFFFF, 0xFFFF}` need `3 * 2 + 1 = 7` bytes,
which is exactly what is written with `outsize = 7`; with `outsize = 6` the call
fails for lack of room. -/
theorem utf16_to_utf8_worst_case_witness :
    (∀ i < 2, ofList [0xFFFF, 0xFFFF] i < 65536) ∧
    (utf16_to_utf8 (fun _ => 0) (ofList [0xFFFF, 0xFFFF]) 7 2).written ≤ 3 * 2 + 1 ∧
    (utf16_to_utf8 (fun _ => 0) (ofList [0xFFFF, 0xFFFF]) 7 2).status ≠ -ENAMETOOLONG ∧
    (utf16_to_utf8 (fun _ => 0) (ofList [0xFFFF, 0xFFFF]) 7 2).written = 7 ∧
    (utf16_to_utf8 (fun _ => 0) (ofList [0xFFFF, 0xFFFF]) 6 2).status = -ENAMETOOLONG := by
  have h := utf16_to_utf8_worst_case (fun _ => 0) (ofList [0xFFFF, 0xFFFF]) 7 2 (by decide)
  refine ⟨by decide, h.1, (h.2 (by decide)).1, ?_, ?_⟩
  · simp +decide [utf16_to_utf8, utf16_loop_step, utf16_loop_done, utf16_to_wchar,
      wchar_to_utf8, ofList]
  · simp +decide [utf16_to_utf8, utf16_loop_step, utf16_loop_done, utf16_to_wchar,
      wchar_to_utf8, ofList]

/-! ## Scalars beyond the UTF-16 range -/

theorem readBuf_getD (m : Mem) (s n j : Nat) (h : j < n) :
    (readBuf m s n).getD j 0 = m (s + j) := by
  unfold readBuf
  rw [List.getD_eq_getElem?_getD, List.getElem?_eq_getElem (by simpa using h)]
  simp

theorem utf8_loop_single_pair (utf8 mem2 : Mem) (v outsize2 : Nat)
    (hv1 : 0xFFFF < v) (hv2 : v ≤ 0x7FFFFFFF)
    (hin : readBuf utf8 0 (spec_utf8_length v) = spec_utf8_encode v) (hcap : 3 ≤ outsize2) :
    utf8_to_utf16 mem2 utf8 outsize2 (spec_utf8_length v) =
      ⟨0, store (store (store mem2 0 (0xd800 + (v - 0x10000) / 1024 % 1024)) 1
        (0xdc00 + (v - 0x10000) % 1024)) 2 0, 3⟩ := by
  have hlen := spec_utf8_encode_length_eq v hv2
  have hpos : 0 < spec_utf8_length v := by
    unfold spec_utf8_length; split_ifs <;> omega
  have hdec : utf8_to_wchar utf8 0 (spec_utf8_length v - 0) =
      some ((v : Int), 0 + (spec_utf8_encode v).length) := by
    refine utf8_to_wchar_of_encode utf8 0 _ v hv2 (fun j hj => ?_) (by omega)
    rw [← hin, readBuf_getD utf8 0 _ j (by omega)]
  unfold utf8_to_utf16
  rw [utf8_loop_step_pair utf8 _ outsize2 0 0 mem2 v _ hpos hdec hv1, if_neg (by omega),
    utf8_loop_done _ _ _ _ _ _ (by omega)]
  unfold utf8_to_utf16_end
  rw [if_neg (by omega)]

/-- C20: a scalar `v` with `0xFFFF < v ≤ 0x7FFFFFFF` is not rejected by
`wchar_to_utf16` but wrapped. With `outsize ≥ 2` the call succeeds and writes a
well-formed pair (a high surrogate then a low surrogate), on which
`utf16_to_wchar` yields `0x10000 + ((v - 0x10000) mod 0x100000)`; this is `v`
exactly when `v ≤ 0x10FFFF`. So `utf8_to_utf16` accepts the 4-, 5- or 6-byte
UTF-8 sequence that encodes `v`: with `outsize ≥ 3` it returns 0 and writes that
pair and the terminator. -/
theorem utf16_wraps_beyond_range (mem utf8 mem2 : Mem) (output v outsize outsize2 : Nat)
    (hv1 : 0xFFFF < v) (hv2 : v ≤ 0x7FFFFFFF) (hcap : 2 ≤ outsize) :
    (∃ mem', wchar_to_utf16 mem output (v : Int) outsize = some (mem', output + 2) ∧
      isHighSurrogate (mem' output) ∧ isLowSurrogate (mem' (output + 1)) ∧
      utf16_to_wchar mem' output 2 =
        some (((0x10000 + (v - 0x10000) % 0x100000 : Nat) : Int), output + 2)) ∧
    (0x10000 + (v - 0x10000) % 0x100000 = v ↔ v ≤ 0x10FFFF) ∧
    (readBuf utf8 0 (spec_utf8_length v) = spec_utf8_encode v → 3 ≤ outsize2 →
      4 ≤ spec_utf8_length v ∧
      (utf8_to_utf16 mem2 utf8 outsize2 (spec_utf8_length v)).status = 0 ∧
      (utf8_to_utf16 mem2 utf8 outsize2 (spec_utf8_length v)).written = 3 ∧
      readBuf (utf8_to_utf16 mem2 utf8 outsize2 (spec_utf8_length v)).mem 0 3 =
        [0xD800 ||| (((v - 0x10000) >>> 10) &&& 0x3FF),
          0xDC00 ||| ((v - 0x10000) &&& 0x3FF), 0]) := by
  refine ⟨?_, by omega, fun hin hcap2 => ?_⟩
  · have he := wchar_to_utf16_pair mem output v outsize hv1
    rw [if_neg (by omega)] at he
    refine ⟨_, he, ?_, ?_, ?_⟩
    · unfold isHighSurrogate
      rw [store_of_ne _ _ _ _ (by omega), store_self]
      omega
    · unfold isLowSurrogate
      rw [store_self]
      omega
    · generalize hm : store (store mem output (0xd800 + (v - 0x10000) / 1024 % 1024))
        (output + 1) (0xdc00 + (v - 0x10000) % 1024) = m
      have r0 : m output = 0xd800 + (v - 0x10000) / 1024 % 1024 := by
        subst hm; simp [store_apply]
      have r1 : m (output + 1) = 0xdc00 + (v - 0x10000) % 1024 := by
        subst hm; simp [store_apply]
      rw [utf16_to_wchar_pair _ _ _ (by rw [r0]; omega) (Nat.le_refl _) (by rw [r1]; omega),
        r0, r1]
      have e : (0xd800 + (v - 0x10000) / 1024 % 1024) % 1024 * 1024 +
          (0xdc00 + (v - 0x10000) % 1024) % 1024 + 0x10000 =
          0x10000 + (v - 0x10000) % 0x100000 := by omega
      rw [e]
  · rw [utf8_loop_single_pair utf8 mem2 v outsize2 hv1 hv2 hin hcap2,
      surr_hi_spec, surr_lo_spec, shr10]
    refine ⟨?_, rfl, rfl, ?_⟩
    · unfold spec_utf8_length
      split_ifs <;> omega
    · simp [readBuf, List.range', store_apply]

/-- Witness of C20: `0x110000`, encoded in UTF-8 as `{0xF4, 0x90, 0x80, 0x80}`,
is converted to the pair `{0xD800, 0xDC00}`, the pair of `0x10000`
(`{0xF0, 0x90, 0x80, 0x80}`). -/
theorem utf16_wraps_beyond_range_witness :
    spec_utf8_encode 0x110000 = [0xF4, 0x90, 0x80, 0x80] ∧
    (utf8_to_utf16 (fun _ => 0xFFFF) (ofList [0xF4, 0x90, 0x80, 0x80]) 3 4).status = 0 ∧
    readBuf (utf8_to_utf16 (fun _ => 0xFFFF) (ofList [0xF4, 0x90, 0x80, 0x80]) 3 4).mem 0 3 =
      [0xD800, 0xDC00, 0] ∧
    readBuf (utf8_to_utf16 (fun _ => 0xFFFF) (ofList [0xF0, 0x90, 0x80, 0x80]) 3 4).mem 0 3 =
      [0xD800, 0xDC00, 0] ∧
    ∃ mem', wchar_to_utf16 (fun _ => 0) 0 ((0x110000 : Nat) : Int) 2 = some (mem', 0 + 2) ∧
      isHighSurrogate (mem' 0) ∧ isLowSurrogate (mem' (0 + 1)) ∧
      utf16_to_wchar mem' 0 2 =
        some (((0x10000 + (0x110000 - 0x10000) % 0x100000 : Nat) : Int), 0 + 2) := by
  have h := utf16_wraps_beyond_range (fun _ => 0) (ofList [0xF4, 0x90, 0x80, 0x80])
    (fun _ => 0xFFFF) 0 0x110000 2 3 (by decide) (by decide) (by decide)
  have h' := utf16_wraps_beyond_range (fun _ => 0) (ofList [0xF0, 0x90, 0x80, 0x80])
    (fun _ => 0xFFFF) 0 0x10000 2 3 (by decide) (by decide) (by decide)
  have hl : spec_utf8_length 0x110000 = 4 := by decide
  have hl' : spec_utf8_length 0x10000 = 4 := by decide
  have h3 := h.2.2 (by decide) (by decide)
  have h3' := h'.2.2 (by decide) (by decide)
  rw [hl] at h3
  rw [hl'] at h3'
  refine ⟨by decide, h3.2.1, ?_, ?_, h.1⟩
  · rw [h3.2.2.2]; decide
  · rw [h3'.2.2.2]; decide

/-! ## String round trip UTF-16 → UTF-8 → UTF-16 -/

theorem utf16_to_wchar_some_cases {input : Mem} {iptr insize : Nat} {wc : Int} {p : Nat}
    (h : utf16_to_wchar input iptr insize = some (wc, p)) :
    (input iptr / 1024 % 64 = 54 ∧ 2 ≤ insize ∧ input (iptr + 1) / 1024 % 64 = 55 ∧
        p = iptr + 2) ∨
      (input iptr / 1024 % 64 ≠ 54 ∧ p = iptr + 1) := by
  unfold utf16_to_wchar at h
  simp only [and_fc00] at h
  split at h
  · split at h
    · simp at h
    · simp only [Option.some.injEq, Prod.mk.injEq] at h
      exact Or.inl ⟨by omega, by omega, by omega, by omega⟩
  · simp only [Option.some.injEq, Prod.mk.injEq] at h
    exact Or.inr ⟨by omega, by omega⟩

theorem utf16_loop_success_paired (input : Mem) (iend oend : Nat)
    (hr : ∀ i < iend, input i < 65536) (hnz : ∀ i < iend, input i ≠ 0)
    (iptr optr : Nat) (mem : Mem) :
    (utf16_to_utf8_loop input iend oend iptr optr mem).status = 0 →
      ∀ i, iptr ≤ i → i < iend → isHighSurrogate (input i) →
        i + 1 < iend ∧ isLowSurrogate (input (i + 1)) := by
  refine utf16_to_utf8_loop.induct input iend oend
    (fun iptr optr mem =>
      (utf16_to_utf8_loop input iend oend iptr optr mem).status = 0 →
        ∀ i, iptr ≤ i → i < iend → isHighSurrogate (input i) →
          i + 1 < iend ∧ isLowSurrogate (input (i + 1)))
    ?_ ?_ ?_ ?_ ?_ ?_ iptr optr mem
  · intro iptr optr mem hlt hdec h0
    rw [utf16_loop_step _ _ _ _ _ _ hlt, hdec] at h0
    have h0' : -EILSEQ = (0 : Int) := h0
    exact absurd h0' (by decide)
  · intro iptr optr mem hlt wc iptr' hdec henc h0
    rw [utf16_loop_step _ _ _ _ _ _ hlt, hdec] at h0
    simp only [henc] at h0
    have h0' : -ENAMETOOLONG = (0 : Int) := h0
    exact absurd h0' (by decide)
  · intro iptr optr mem hlt iptr' mem' optr' hdec _ _
    exact absurd rfl (utf16_to_wchar_nonzero hdec (hnz iptr hlt))
  · intro iptr optr mem hlt wc iptr' hdec mem' optr' henc hwc ih h0
    rw [utf16_loop_step _ _ _ _ _ _ hlt, hdec] at h0
    simp only [henc, if_neg hwc] at h0
    have ih' := ih h0
    intro i hi1 hi2 hhi
    rcases utf16_to_wchar_some_cases hdec with ⟨h54, h2, h55, rfl⟩ | ⟨h54, rfl⟩
    · have hlow : isLowSurrogate (input (iptr + 1)) :=
        (isLowSurrogate_iff _ (hr _ (by omega))).2 h55
      by_cases e0 : i = iptr
      · rw [e0]
        exact ⟨by omega, hlow⟩
      by_cases e1 : i = iptr + 1
      · rw [e1] at hhi
        unfold isHighSurrogate at hhi
        unfold isLowSurrogate at hlow
        omega
      · exact ih' i (by omega) hi2 hhi
    · by_cases e0 : i = iptr
      · rw [e0] at hhi
        exact absurd ((isHighSurrogate_iff _ (hr _ hlt)).1 hhi) h54
      · exact ih' i (by omega) hi2 hhi
  · intro iptr optr mem hlt hge _ i hi1 hi2
    omega
  · intro iptr optr mem hlt hge _ i hi1 hi2
    omega

theorem utf8_loop_of_wellformed (input : Mem) (iend oend : Nat) (B : Mem)
    (hr : ∀ i < iend, input i < 65536) (hnz : ∀ i < iend, input i ≠ 0)
    (hp : ∀ i < iend, isHighSurrogate (input i) →
      i + 1 < iend ∧ isLowSurrogate (input (i + 1))) :
    ∀ n i p o mem2, iend - i = n →
      (∀ j, j < (spec_utf16_to_utf8 (readBuf input i (iend - i))).length →
        B (p + j) = (spec_utf16_to_utf8 (readBuf input i (iend - i))).getD j 0) →
      o + (iend - i) + 1 ≤ oend →
      utf8_to_utf16_loop B (p + (spec_utf16_to_utf8 (readBuf input i (iend - i))).length)
          oend p o mem2 =
        ⟨0, storeList mem2 o (readBuf input i (iend - i) ++ [0]), o + (iend - i) + 1⟩ := by
  intro n
  induction n using Nat.strong_induction_on with
  | _ n ih =>
    intro i p o mem2 hn hB hcap
    by_cases hlt : i < iend
    · have hs : iend - i = (iend - (i + 1)) + 1 := by omega
      by_cases hh : input i / 1024 % 64 = 54
      · have hhigh : isHighSurrogate (input i) := (isHighSurrogate_iff _ (hr _ hlt)).2 hh
        obtain ⟨h1, hlow⟩ := hp i hlt hhigh
        have hs2 : iend - (i + 1) = (iend - (i + 2)) + 1 := by omega
        have hsc : spec_utf16_to_utf8 (readBuf input i (iend - i)) =
            spec_utf8_encode (input i % 1024 * 1024 + input (i + 1) % 1024 + 0x10000) ++
              spec_utf16_to_utf8 (readBuf input (i + 2) (iend - (i + 2))) := by
          unfold spec_utf16_to_utf8
          rw [hs, readBuf_succ, hs2, readBuf_succ]
          simp only [spec_utf16_scalars, if_pos hhigh, dec_pair, spec_utf8_string]
        have hrb : readBuf input i (iend - i) =
            input i :: input (i + 1) :: readBuf input (i + 2) (iend - (i + 2)) := by
          rw [hs, readBuf_succ, hs2, readBuf_succ]
        rw [hsc] at hB ⊢
        rw [hrb]
        generalize hW : input i % 1024 * 1024 + input (i + 1) % 1024 + 0x10000 = W at hB ⊢
        have hWle : W ≤ 0x7fffffff := by omega
        have hlen := spec_utf8_encode_length W hWle
        rw [if_neg (by omega), if_neg (by omega), if_neg (by omega), if_pos (by omega)] at hlen
        rw [List.length_append] at hB ⊢
        have hdec : utf8_to_wchar B p (p + ((spec_utf8_encode W).length +
            (spec_utf16_to_utf8 (readBuf input (i + 2) (iend - (i + 2)))).length) - p) =
            some ((W : Int), p + (spec_utf8_encode W).length) := by
          refine utf8_to_wchar_of_encode B p _ W hWle (fun j hj => ?_) (by omega)
          rw [hB j (by omega), List.getD_append _ _ _ _ hj]
        rw [utf8_loop_step_pair B _ oend p o mem2 W _ (by omega) hdec (by omega),
          if_neg (by omega)]
        have e1 : p + ((spec_utf8_encode W).length +
            (spec_utf16_to_utf8 (readBuf input (i + 2) (iend - (i + 2)))).length) =
            p + (spec_utf8_encode W).length +
              (spec_utf16_to_utf8 (readBuf input (i + 2) (iend - (i + 2)))).length := by
          omega
        rw [e1, ih (iend - (i + 2)) (by omega) (i + 2) _ _ _ rfl (fun j hj => ?_) (by omega)]
        · have hu := hhigh
          have hl := hlow
          unfold isHighSurrogate at hu
          unfold isLowSurrogate at hl
          have e2 : 0xd800 + (W - 0x10000) / 1024 % 1024 = input i := by omega
          have e3 : 0xdc00 + (W - 0x10000) % 1024 = input (i + 1) := by omega
          have e4 : o + 2 + (iend - (i + 2)) + 1 = o + (iend - i) + 1 := by omega
          rw [e2, e3, e4]
          rfl
        · have := hB ((spec_utf8_encode W).length + j) (by omega)
          rw [List.getD_append_right _ _ _ _ (by omega)] at this
          have e5 : p + (spec_utf8_encode W).length + j =
              p + ((spec_utf8_encode W).length + j) := by omega
          rw [e5, this]
          congr 1
          omega
      · have hnh : ¬ isHighSurrogate (input i) := fun h =>
          hh ((isHighSurrogate_iff _ (hr _ hlt)).1 h)
        have hsc : spec_utf16_to_utf8 (readBuf input i (iend - i)) =
            spec_utf8_encode (input i) ++
              spec_utf16_to_utf8 (readBuf input (i + 1) (iend - (i + 1))) := by
          unfold spec_utf16_to_utf8
          rw [hs, readBuf_succ, spec_utf16_scalars_cons _ _ hnh]
          simp only [spec_utf8_string]
        have hrb : readBuf input i (iend - i) =
            input i :: readBuf input (i + 1) (iend - (i + 1)) := by
          rw [hs, readBuf_succ]
        rw [hsc] at hB ⊢
        rw [hrb]
        have hu := hr _ hlt
        have hu0 := hnz _ hlt
        have hWle : input i ≤ 0x7fffffff := by omega
        have hlen := spec_utf8_encode_length (input i) hWle
        have hlen1 : 1 ≤ (spec_utf8_encode (input i)).length := by
          rw [hlen]; split_ifs <;> omega
        rw [List.length_append] at hB ⊢
        have hdec : utf8_to_wchar B p (p + ((spec_utf8_encode (input i)).length +
            (spec_utf16_to_utf8 (readBuf input (i + 1) (iend - (i + 1)))).length) - p) =
            some (((input i : Nat) : Int), p + (spec_utf8_encode (input i)).length) := by
          refine utf8_to_wchar_of_encode B p _ (input i) hWle (fun j hj => ?_) (by omega)
          rw [hB j (by omega), List.getD_append _ _ _ _ hj]
        rw [utf8_loop_step_bmp B _ oend p o mem2 (input i) _ (by omega) hdec hu0 (by omega),
          if_neg (by omega)]
        have e1 : p + ((spec_utf8_encode (input i)).length +
            (spec_utf16_to_utf8 (readBuf input (i + 1) (iend - (i + 1)))).length) =
            p + (spec_utf8_encode (input i)).length +
              (spec_utf16_to_utf8 (readBuf input (i + 1) (iend - (i + 1)))).length := by
          omega
        rw [e1, ih (iend - (i + 1)) (by omega) (i + 1) _ _ _ rfl (fun j hj => ?_) (by omega)]
        · have e4 : o + 1 + (iend - (i + 1)) + 1 = o + (iend - i) + 1 := by omega
          rw [e4]
          rfl
        · have := hB ((spec_utf8_encode (input i)).length + j) (by omega)
          rw [List.getD_append_right _ _ _ _ (by omega)] at this
          have e5 : p + (spec_utf8_encode (input i)).length + j =
              p + ((spec_utf8_encode (input i)).length + j) := by omega
          rw [e5, this]
          congr 1
          omega
    · have hs : iend - i = 0 := by omega
      rw [hs, readBuf_zero]
      simp only [spec_utf16_to_utf8, spec_utf16_scalars, spec_utf8_string, List.length_nil,
        Nat.add_zero, List.nil_append, storeList]
      rw [utf8_loop_done _ _ _ _ _ _ (Nat.lt_irrefl _)]
      unfold utf8_to_utf16_end
      rw [if_neg (by omega)]

/-- C18: string round trip. On a UTF-16 input of `insize` 16-bit units with no
zero unit on which `utf16_to_utf8` returns 0, having written `L` bytes and the
terminator, `utf8_to_utf16` run on those `L` bytes (`insize = L`) with
`outsize ≥ insize + 1` returns 0 and writes exactly the original `insize` code
units followed by one zero unit, and nothing else. -/
theorem utf16_utf8_utf16_roundtrip (mem mem2 input : Mem) (outsize insize outsize2 : Nat)
    (hr : ∀ i < insize, input i < 65536) (hnz : ∀ i < insize, input i ≠ 0)
    (hok : (utf16_to_utf8 mem input outsize insize).status = 0)
    (hcap : insize + 1 ≤ outsize2) :
    (utf8_to_utf16 mem2 (utf16_to_utf8 mem input outsize insize).mem outsize2
      ((utf16_to_utf8 mem input outsize insize).written - 1)).status = 0 ∧
    (utf8_to_utf16 mem2 (utf16_to_utf8 mem input outsize insize).mem outsize2
      ((utf16_to_utf8 mem input outsize insize).written - 1)).written = insize + 1 ∧
    readBuf (utf8_to_utf16 mem2 (utf16_to_utf8 mem input outsize insize).mem outsize2
      ((utf16_to_utf8 mem input outsize insize).written - 1)).mem 0 (insize + 1) =
        readBuf input 0 insize ++ [0] ∧
    ∀ i, insize + 1 ≤ i →
      (utf8_to_utf16 mem2 (utf16_to_utf8 mem input outsize insize).mem outsize2
        ((utf16_to_utf8 mem input outsize insize).written - 1)).mem i = mem2 i := by
  have hp : ∀ i < insize, isHighSurrogate (input i) →
      i + 1 < insize ∧ isLowSurrogate (input (i + 1)) := fun i hi hh =>
    utf16_loop_success_paired input insize outsize hr hnz 0 0 mem hok i (Nat.zero_le _) hi hh
  obtain ⟨h1, h2⟩ := utf16_loop_wellformed input insize outsize hr hnz hp insize 0 0 mem rfl
  simp only [Nat.sub_zero, Nat.zero_add] at h1 h2
  have hfit : (spec_utf8_string (spec_utf16_scalars (readBuf input 0 insize))).length <
      outsize := by
    by_contra hc
    have hbad := h2 (by omega)
    unfold utf16_to_utf8 at hok
    rw [hok] at hbad
    exact absurd hbad (by decide)
  have hres := h1 hfit
  have hB : ∀ j, j < (spec_utf16_to_utf8 (readBuf input 0 (insize - 0))).length →
      (utf16_to_utf8 mem input outsize insize).mem (0 + j) =
        (spec_utf16_to_utf8 (readBuf input 0 (insize - 0))).getD j 0 := by
    intro j hj
    unfold utf16_to_utf8
    rw [hres]
    simp only [Nat.sub_zero] at hj ⊢
    unfold spec_utf16_to_utf8 at hj ⊢
    rw [storeList_read _ mem 0 j (by rw [List.length_append]; omega),
      List.getD_append _ _ _ _ hj]
  have hloop := utf8_loop_of_wellformed input insize outsize2
    (utf16_to_utf8 mem input outsize insize).mem hr hnz hp insize 0 0 0 mem2 rfl hB
    (by omega)
  have hL : (utf16_to_utf8 mem input outsize insize).written - 1 =
      0 + (spec_utf16_to_utf8 (readBuf input 0 (insize - 0))).length := by
    unfold utf16_to_utf8
    rw [hres]
    simp only [Nat.sub_zero, Nat.zero_add, Nat.add_sub_cancel]
    rfl
  have hrun : utf8_to_utf16 mem2 (utf16_to_utf8 mem input outsize insize).mem outsize2
      ((utf16_to_utf8 mem input outsize insize).written - 1) =
      ⟨0, storeList mem2 0 (readBuf input 0 insize ++ [0]), insize + 1⟩ := by
    rw [hL]
    unfold utf8_to_utf16
    rw [hloop]
    simp only [Nat.sub_zero, Nat.zero_add]
  rw [hrun]
  have hlen : (readBuf input 0 insize ++ [0]).length = insize + 1 := by
    simp [readBuf]
  refine ⟨rfl, rfl, ?_, fun i hi => ?_⟩
  · have := readBuf_storeList (readBuf input 0 insize ++ [0]) mem2 0
    rw [hlen] at this
    exact this
  · exact storeList_frame _ mem2 0 i (Or.inr (by rw [hlen]; omega))

/-- Witness of C18: `{0x41, 0xD83D, 0xDE00, 0xDC00}` (a letter, a surrogate pair
and a lone low surrogate) converts to 8 bytes and the terminator, and those 8
bytes convert back to the same four units and a zero unit. -/
theorem utf16_utf8_utf16_roundtrip_witness :
    (∀ i < 4, ofList [0x41, 0xD83D, 0xDE00, 0xDC00] i < 65536) ∧
    (∀ i < 4, ofList [0x41, 0xD83D, 0xDE00, 0xDC00] i ≠ 0) ∧
    (utf16_to_utf8 (fun _ => 0xFF) (ofList [0x41, 0xD83D, 0xDE00, 0xDC00]) 9 4).status = 0 ∧
    (utf16_to_utf8 (fun _ => 0xFF) (ofList [0x41, 0xD83D, 0xDE00, 0xDC00]) 9 4).written = 9 ∧
    readBuf (utf8_to_utf16 (fun _ => 0xFFFF)
      (utf16_to_utf8 (fun _ => 0xFF) (ofList [0x41, 0xD83D, 0xDE00, 0xDC00]) 9 4).mem 5
      ((utf16_to_utf8 (fun _ => 0xFF) (ofList [0x41, 0xD83D, 0xDE00, 0xDC00]) 9 4).written
        - 1)).mem 0 (4 + 1) = [0x41, 0xD83D, 0xDE00, 0xDC00, 0] := by
  have hok : (utf16_to_utf8 (fun _ => 0xFF)
      (ofList [0x41, 0xD83D, 0xDE00, 0xDC00]) 9 4).status = 0 := by
    simp +decide [utf16_to_utf8, utf16_loop_step, utf16_loop_done, utf16_to_wchar,
      wchar_to_utf8, ofList]
  have hw : (utf16_to_utf8 (fun _ => 0xFF)
      (ofList [0x41, 0xD83D, 0xDE00, 0xDC00]) 9 4).written = 9 := by
    simp +decide [utf16_to_utf8, utf16_loop_step, utf16_loop_done, utf16_to_wchar,
      wchar_to_utf8, ofList]
  have h := utf16_utf8_utf16_roundtrip (fun _ => 0xFF) (fun _ => 0xFFFF)
    (ofList [0x41, 0xD83D, 0xDE00, 0xDC00]) 9 4 5 (by decide) (by decide) hok (by decide)
  refine ⟨by decide, by decide, hok, hw, ?_⟩
  rw [h.2.2.1]
  decide

end ExfatUtf
